import Mathlib

/-!
Verification of the Daugaard SPSC ring buffer (`src/daugaard/ring_buffer.hpp`
and the `TRingBuffer` derivative) against its natural-language specification.

The embedding models `size_t` values as `Nat` with explicit reduction
modulo `2 ^ 64` wherever the C++ code can wrap, and models the
`static_cast<ptrdiff_t>` conversions with an explicit two's-complement
reinterpretation `toSigned`.  The single-producer/single-consumer protocol
is modelled as an interleaving of atomic steps: each `PrepareWrite` /
`PrepareRead` reads the peer's shared counter once (the successful
acquire load that exits the spin loop); failed spin iterations change no
observable state, so collapsing an operation into one guarded step is
faithful for safety properties under sequential consistency.
-/

namespace Daugaard

/-- Width of `size_t` / `ptrdiff_t` on the modelled 64-bit platform. -/
def W : Nat := 2 ^ 64

/-- Reinterpretation of a 64-bit unsigned value as `ptrdiff_t`
(two's complement). -/
def toSigned (n : Nat) : Int :=
  if n < 2 ^ 63 then (n : Int) else (n : Int) - (2 ^ 64 : Int)

/-- `size_t` addition (wraps modulo `2 ^ 64`). -/
def wadd (a b : Nat) : Nat := (a + b) % W

/-- `size_t` subtraction (wraps modulo `2 ^ 64`). -/
def wsub (a b : Nat) : Nat := (a + (W - b % W)) % W

theorem W_pos : 0 < W := by decide

theorem wadd_lt (a b : Nat) : wadd a b < W := Nat.mod_lt _ W_pos

theorem wsub_lt (a b : Nat) : wsub a b < W := Nat.mod_lt _ W_pos

theorem wadd_int (a b : Nat) : (wadd a b : Int) = ((a : Int) + b) % (W : Int) := by
  unfold wadd
  push_cast
  ring_nf

theorem wsub_int (a b : Nat) : (wsub a b : Int) = ((a : Int) - b) % (W : Int) := by
  unfold wsub
  have hb : b % W < W := Nat.mod_lt _ W_pos
  have h1 : (((W - b % W) : Nat) : Int) = (W : Int) - ((b : Int) % (W : Int)) := by
    rw [Nat.cast_sub (le_of_lt hb)]
    push_cast
    ring
  push_cast [h1]
  have h2 : (a : Int) + ((W : Int) - (b : Int) % (W : Int)) =
      ((a : Int) - (b : Int) % (W : Int)) + (W : Int) * 1 := by ring
  rw [h2, Int.add_mul_emod_self_left, Int.sub_emod, Int.emod_emod_of_dvd _ (dvd_refl _),
    ← Int.sub_emod]

/-- Exact value of `wsub` on reduced operands with a known Nat difference. -/
theorem wsub_of_le {x y : Nat} (hyx : y ≤ x) (hd : x - y < W) :
    wsub (x % W) (y % W) = x - y := by
  have hx : ((x % W : Nat) : Int) = (x : Int) % (W : Int) := by push_cast; ring
  have hy : ((y % W : Nat) : Int) = (y : Int) % (W : Int) := by push_cast; ring
  have h := wsub_int (x % W) (y % W)
  rw [hx, hy, ← Int.sub_emod] at h
  have hxy : ((x : Int) - y) % (W : Int) = ((x - y : Nat) : Int) := by
    rw [← Nat.cast_sub hyx]
    exact Int.emod_eq_of_lt (by positivity) (by exact_mod_cast hd)
  rw [hxy] at h
  exact_mod_cast h

/-- Key bit-manipulation fact behind `Align`: masking with `2 ^ w - 2 ^ k`
(the 64-bit value of `~(alignment - 1)` for `alignment = 2 ^ k`) clears the
low `k` bits, i.e. rounds down to a multiple of `2 ^ k`. -/
theorem and_mask_eq_sub_mod {w k y : Nat} (hk : k ≤ w) (hy : y < 2 ^ w) :
    y &&& (2 ^ w - 2 ^ k) = y - y % 2 ^ k := by
  have hmask : 2 ^ w - 2 ^ k = (2 ^ (w - k) - 1) <<< k := by
    rw [Nat.shiftLeft_eq, Nat.sub_mul, one_mul, ← pow_add]
    congr 2
    omega
  have hrhs : y - y % 2 ^ k = (y >>> k) <<< k := by
    rw [Nat.shiftLeft_eq, Nat.shiftRight_eq_div_pow, mul_comm]
    have := Nat.div_add_mod y (2 ^ k)
    omega
  rw [hmask, hrhs]
  apply Nat.eq_of_testBit_eq
  intro i
  rw [Nat.testBit_land, Nat.testBit_shiftLeft, Nat.testBit_shiftLeft,
    Nat.testBit_two_pow_sub_one, Nat.testBit_shiftRight]
  by_cases hik : k ≤ i
  · have hki : k + (i - k) = i := by omega
    rw [hki]
    by_cases hiw : i < w
    · simp [hik, hiw, Nat.lt_sub_iff_add_lt.mpr (by omega : i - k + k < w - k + k)]
      omega
    · have : y.testBit i = false := by
        apply Nat.testBit_eq_false_of_lt
        exact lt_of_lt_of_le hy (Nat.pow_le_pow_right (by norm_num) (by omega))
      simp [this]
  · simp [hik]

/-- `&&&` with a mask divisible by `2 ^ k` yields a multiple of `2 ^ k`. -/
theorem two_pow_dvd_and_mask {w k y : Nat} (hk : k ≤ w) (hy : y < 2 ^ w) :
    2 ^ k ∣ (y &&& (2 ^ w - 2 ^ k)) := by
  rw [and_mask_eq_sub_mod hk hy]
  have := Nat.div_add_mod y (2 ^ k)
  exact ⟨y / 2 ^ k, by omega⟩

/-! ## Embedding of the source

`LocalState` mirrors `TRingBuffer::LocalState` (`part_000`, lines 241-248;
identically `RingBuffer::LocalState` in `ring_buffer.hpp` lines 232-247):
`char * buffer; size_t pos; size_t end; size_t base; size_t size;`.
The pointer `buffer` is modelled as a numeric address.  The C++ field
`end` is a Lean keyword, so it is rendered `end_`. -/
structure LocalState where
  buffer : Nat
  pos : Nat
  end_ : Nat
  base : Nat
  size : Nat
deriving DecidableEq

/-- The zero-initialized `LocalState()` (all fields null / zero). -/
def LocalState.zeroed : LocalState :=
  { buffer := 0, pos := 0, end_ := 0, base := 0, size := 0 }

/-- The `RingBuffer` aggregate: two local states (`m_Writer`, `m_Reader`)
and two shared atomic counters (`m_WriterShared.pos`, `m_ReaderShared.pos`),
modelled by their current values. -/
structure RingBuffer where
  m_Writer : LocalState
  m_Reader : LocalState
  m_WriterShared : Nat
  m_ReaderShared : Nat
deriving DecidableEq

/-- `TRingBuffer::is_power_of_two` (`part_000`, lines 215-219):
`t > 0 && (t & (t - 1)) == 0`. -/
def is_power_of_two (t : Nat) : Bool :=
  decide (0 < t) && ((t &&& (t - 1)) == 0)

/-- `RingBuffer::Align` (`ring_buffer.hpp` lines 210-222, `part_000` lines
221-231), with the `DAUGAARD_RING_BUFFER_DO_NOT_ALIGN` flag unset:
`(pos + alignment - 1) & ~(alignment - 1)` in `size_t` arithmetic.
For `1 ≤ alignment < 2 ^ 64` the complement `~(alignment - 1)` equals
`W - alignment`. -/
def Align (pos alignment : Nat) : Nat :=
  ((pos + (alignment - 1)) % W) &&& (W - alignment)

/-- The signed space test used by both slow paths (`ring_buffer.hpp` lines
319 and 339): `static_cast<ptrdiff_t>(available) >= static_cast<ptrdiff_t>(end)`. -/
def SignedSpaceTest (available e : Nat) : Bool :=
  decide (toSigned e ≤ toSigned available)

/-- Body of the `for (;;)` loop of `GetBufferSpaceToWriteTo`
(`ring_buffer.hpp` lines 315-323), run with the wrap-adjusted values of
the mutated locals `pos`, `end` and `m_Writer.base`.  The successful
final iteration acquires the current value of `m_ReaderShared.pos` and
writes `base` and `end` back into `m_Writer`; `none` means the signed
space test failed against the current counter and the spin continues
(a failed iteration changes no observable state). -/
def WriteLoopIteration (rb : RingBuffer) (pos e base : Nat) :
    Option (RingBuffer × Nat × Nat) :=
  let readerPos := rb.m_ReaderShared
  let available := wadd (wsub readerPos base) rb.m_Writer.size
  if SignedSpaceTest available e then
    some
      ({ rb with
          m_Writer :=
            { rb.m_Writer with
              base := base
              end_ := min available rb.m_Writer.size } },
        pos, e)
  else
    none

/-- Body of the `for (;;)` loop of `GetBufferSpaceToReadFrom`
(`ring_buffer.hpp` lines 335-343): `available = writerPos - base` with no
`+ size` term. -/
def ReadLoopIteration (rb : RingBuffer) (pos e base : Nat) :
    Option (RingBuffer × Nat × Nat) :=
  let writerPos := rb.m_WriterShared
  let available := wsub writerPos base
  if SignedSpaceTest available e then
    some
      ({ rb with
          m_Reader :=
            { rb.m_Reader with
              base := base
              end_ := min available rb.m_Reader.size } },
        pos, e)
  else
    none

/-- `RingBuffer::GetBufferSpaceToWriteTo` (`ring_buffer.hpp` lines 306-324,
`part_000` lines 313-332).  The reference parameters `pos`/`end` come in as
arguments and go out in the result.  The wrap branch
`end -= pos; pos = 0; m_Writer.base += m_Writer.size` executes first when
`end > m_Writer.size`; the spin loop then runs on the adjusted values. -/
def RingBuffer.GetBufferSpaceToWriteTo (rb : RingBuffer) (pos e : Nat) :
    Option (RingBuffer × Nat × Nat) :=
  if e > rb.m_Writer.size then
    WriteLoopIteration rb 0 (wsub e pos) (wadd rb.m_Writer.base rb.m_Writer.size)
  else
    WriteLoopIteration rb pos e rb.m_Writer.base

/-- `RingBuffer::GetBufferSpaceToReadFrom` (`ring_buffer.hpp` lines 326-344,
`part_000` lines 334-353).  Identical to the writer's slow path except for
the `available` formula. -/
def RingBuffer.GetBufferSpaceToReadFrom (rb : RingBuffer) (pos e : Nat) :
    Option (RingBuffer × Nat × Nat) :=
  if e > rb.m_Reader.size then
    ReadLoopIteration rb 0 (wsub e pos) (wadd rb.m_Reader.base rb.m_Reader.size)
  else
    ReadLoopIteration rb pos e rb.m_Reader.base

/-- `RingBuffer::PrepareWrite` (`ring_buffer.hpp` lines 262-273, `part_000`
lines 263-276).  Returns the updated ring buffer and the returned pointer
value `m_Writer.buffer + pos`. -/
def RingBuffer.PrepareWrite (rb : RingBuffer) (size alignment : Nat) :
    Option (RingBuffer × Nat) :=
  let pos := Align rb.m_Writer.pos alignment
  let e := (pos + size) % W
  if e > rb.m_Writer.end_ then
    match rb.GetBufferSpaceToWriteTo pos e with
    | some (rb2, pos2, e2) =>
        some ({ rb2 with m_Writer := { rb2.m_Writer with pos := e2 } },
          wadd rb2.m_Writer.buffer pos2)
    | none => none
  else
    some ({ rb with m_Writer := { rb.m_Writer with pos := e } },
      wadd rb.m_Writer.buffer pos)

/-- `RingBuffer::PrepareRead` (`ring_buffer.hpp` lines 284-295, `part_000`
lines 289-301). -/
def RingBuffer.PrepareRead (rb : RingBuffer) (size alignment : Nat) :
    Option (RingBuffer × Nat) :=
  let pos := Align rb.m_Reader.pos alignment
  let e := (pos + size) % W
  if e > rb.m_Reader.end_ then
    match rb.GetBufferSpaceToReadFrom pos e with
    | some (rb2, pos2, e2) =>
        some ({ rb2 with m_Reader := { rb2.m_Reader with pos := e2 } },
          wadd rb2.m_Reader.buffer pos2)
    | none => none
  else
    some ({ rb with m_Reader := { rb.m_Reader with pos := e } },
      wadd rb.m_Reader.buffer pos)

/-- `RingBuffer::FinishWrite` (`ring_buffer.hpp` lines 275-282, `part_000`
lines 278-286): release-store `m_Writer.base + m_Writer.pos` into
`m_WriterShared.pos`. -/
def RingBuffer.FinishWrite (rb : RingBuffer) : RingBuffer :=
  { rb with m_WriterShared := wadd rb.m_Writer.base rb.m_Writer.pos }

/-- `RingBuffer::FinishRead` (`ring_buffer.hpp` lines 297-304, `part_000`
lines 303-311). -/
def RingBuffer.FinishRead (rb : RingBuffer) : RingBuffer :=
  { rb with m_ReaderShared := wadd rb.m_Reader.base rb.m_Reader.pos }

/-- `RingBuffer::Reset` (`ring_buffer.hpp` lines 203-207, `part_000` lines
207-212): `m_Reader = m_Writer = LocalState(); shared counters = 0`. -/
def Reset (rb : RingBuffer) : RingBuffer :=
  let _ := rb
  { m_Writer := LocalState.zeroed, m_Reader := LocalState.zeroed,
    m_WriterShared := 0, m_ReaderShared := 0 }

/-- `RingBuffer::ReattachReader` (`ring_buffer.hpp` lines 193-196). -/
def ReattachReader (rb : RingBuffer) (buffer : Nat) : RingBuffer :=
  { rb with m_Reader := { rb.m_Reader with buffer := buffer } }

/-- `RingBuffer::ReattachWriter` (`ring_buffer.hpp` lines 198-201). -/
def ReattachWriter (rb : RingBuffer) (buffer : Nat) : RingBuffer :=
  { rb with m_Writer := { rb.m_Writer with buffer := buffer } }

/-- `TRingBuffer::Initialize` (`part_000` lines 174-195).  A C++ `throw`
leaves `*this` unmodified because all three checks precede every mutation;
the result pairs the (possibly unchanged) state with the error message, if
any.  The runtime cache-line size returned by the platform probe is a
parameter, as is the compile-time constant
`DAUGAARD_RING_BUFFER_CACHE_LINE_SIZE`. -/
def Initialize (rb : RingBuffer) (runtimeCacheLineSize cacheLineSize buffer size : Nat) :
    RingBuffer × Option String :=
  if runtimeCacheLineSize ≠ cacheLineSize then
    (rb, some "wrong cache line size")
  else if buffer % cacheLineSize ≠ 0 then
    (rb, some "buffer is not aligned on cache line")
  else if is_power_of_two size = false then
    (rb, some "size must be a power of two")
  else
    let rb1 := ReattachWriter (ReattachReader (Reset rb) buffer) buffer
    ({ rb1 with
        m_Reader := { rb1.m_Reader with size := size },
        m_Writer := { rb1.m_Writer with size := size, end_ := size } }, none)

/-- The state produced by a successful `Initialize(buffer, size)`. -/
def initState (buffer size : Nat) : RingBuffer :=
  { m_Writer := { buffer := buffer, pos := 0, end_ := size, base := 0, size := size },
    m_Reader := { buffer := buffer, pos := 0, end_ := 0, base := 0, size := size },
    m_WriterShared := 0, m_ReaderShared := 0 }

/-- A `size_t` value passing `is_power_of_two` is `2 ^ k` for some `k`. -/
theorem pow2_exists {a : Nat} (h : is_power_of_two a = true) : ∃ k, a = 2 ^ k := by
  simp only [is_power_of_two, Bool.and_eq_true, decide_eq_true_eq, beq_iff_eq] at h
  obtain ⟨hpos, hland⟩ := h
  refine ⟨Nat.log2 a, ?_⟩
  have h1 : 2 ^ Nat.log2 a ≤ a := Nat.log2_self_le (by omega)
  have h2 : a < 2 ^ (Nat.log2 a + 1) := Nat.lt_log2_self
  have hp2 : 2 ^ (Nat.log2 a + 1) = 2 * 2 ^ Nat.log2 a := by
    rw [pow_succ]; ring
  by_contra hne
  have hta : a.testBit (Nat.log2 a) = true := by
    rw [Nat.testBit_to_div_mod]
    have : a / 2 ^ Nat.log2 a = 1 := Nat.div_eq_of_lt_le (by omega) (by omega)
    simp [this]
  have htb : (a - 1).testBit (Nat.log2 a) = true := by
    rw [Nat.testBit_to_div_mod]
    have : (a - 1) / 2 ^ Nat.log2 a = 1 := Nat.div_eq_of_lt_le (by omega) (by omega)
    simp [this]
  have := congrArg (fun x => Nat.testBit x (Nat.log2 a)) hland
  simp only [Nat.testBit_land, hta, htb, Bool.and_self, Nat.zero_testBit] at this
  exact absurd this (by decide)

/-- A power of two below `2 ^ 64` has exponent at most `63`. -/
theorem pow2_le_63 {a k : Nat} (ha : a = 2 ^ k) (hW : a < W) : k ≤ 63 := by
  subst ha
  have : k < 64 := by
    have := (Nat.pow_lt_pow_iff_right (a := 2) (by norm_num)).mp (by exact hW)
    exact this
  omega

/-- Characterization of `Align` at power-of-two alignment when the
intermediate sum does not wrap: round `pos` up to the next multiple of
`2 ^ k`. -/
theorem Align_pow2 {k : Nat} (hk : k ≤ 63) (pos : Nat)
    (hpos : pos + (2 ^ k - 1) < W) :
    Align pos (2 ^ k) = (pos + (2 ^ k - 1)) - (pos + (2 ^ k - 1)) % 2 ^ k := by
  unfold Align
  rw [Nat.mod_eq_of_lt hpos]
  exact and_mask_eq_sub_mod (w := 64) (by omega) hpos

theorem Align_ge {k : Nat} (hk : k ≤ 63) (pos : Nat)
    (hpos : pos + (2 ^ k - 1) < W) : pos ≤ Align pos (2 ^ k) := by
  rw [Align_pow2 hk pos hpos]
  have hm : (pos + (2 ^ k - 1)) % 2 ^ k < 2 ^ k := Nat.mod_lt _ (Nat.pos_pow_of_pos _ (by norm_num))
  have h1 : 0 < 2 ^ k := Nat.pos_pow_of_pos _ (by norm_num)
  omega

theorem Align_le {k : Nat} (hk : k ≤ 63) (pos : Nat)
    (hpos : pos + (2 ^ k - 1) < W) : Align pos (2 ^ k) ≤ pos + (2 ^ k - 1) := by
  rw [Align_pow2 hk pos hpos]
  omega

/-- The aligned offset is always a multiple of the (power-of-two)
alignment, with no assumption on `pos`. -/
theorem Align_dvd {k : Nat} (hk : k ≤ 63) (pos : Nat) :
    2 ^ k ∣ Align pos (2 ^ k) := by
  unfold Align
  exact two_pow_dvd_and_mask (w := 64) (by omega) (Nat.mod_lt _ W_pos)

/-! ## Byte memory

A flat byte-addressed memory, used to state the round-trip law: the caller
stores a byte sequence at the address returned by `PrepareWrite` and reads
it back at the address returned by `PrepareRead`. -/

/-- Store the bytes of `B` at consecutive addresses starting at `addr`. -/
def writeBytes (mem : Nat → Nat) (addr : Nat) : List Nat → (Nat → Nat)
  | [] => mem
  | byte :: rest =>
      writeBytes (fun x => if x = addr then byte else mem x) (addr + 1) rest

/-- Read `n` bytes from consecutive addresses starting at `addr`. -/
def readBytes (mem : Nat → Nat) (addr : Nat) : Nat → List Nat
  | 0 => []
  | n + 1 => mem addr :: readBytes mem (addr + 1) n

theorem writeBytes_lt {B : List Nat} {mem : Nat → Nat} {addr x : Nat}
    (h : x < addr) : writeBytes mem addr B x = mem x := by
  induction B generalizing mem addr with
  | nil => rfl
  | cons byte rest ih =>
      rw [writeBytes, ih (by omega)]
      simp [Nat.ne_of_lt h]

theorem readBytes_writeBytes (B : List Nat) (mem : Nat → Nat) (addr : Nat) :
    readBytes (writeBytes mem addr B) addr B.length = B := by
  induction B generalizing mem addr with
  | nil => rfl
  | cons byte rest ih =>
      rw [List.length_cons, readBytes, writeBytes]
      rw [writeBytes_lt (by omega)]
      simp [ih]

/-! ## The interleaving semantics

`Step N` is one atomic action of the producer or the consumer, under the
preconditions stated by the specification: each reservation is at most the
buffer capacity `N`, and alignments are powers of two (and `size_t`
values, hence `< 2 ^ 64`).  `Prepare` steps are enabled exactly when the
slow-path guard passes against the peer's current shared counter (or the
fast path applies); a spinning `Prepare` has not yet taken its step. -/
inductive Step (N : Nat) : RingBuffer → RingBuffer → Prop where
  | prepareWrite (s s' : RingBuffer) (size alignment addr : Nat)
      (hsize : size ≤ N) (halign : is_power_of_two alignment = true)
      (halignW : alignment < W)
      (h : s.PrepareWrite size alignment = some (s', addr)) : Step N s s'
  | finishWrite (s : RingBuffer) : Step N s s.FinishWrite
  | prepareRead (s s' : RingBuffer) (size alignment addr : Nat)
      (hsize : size ≤ N) (halign : is_power_of_two alignment = true)
      (halignW : alignment < W)
      (h : s.PrepareRead size alignment = some (s', addr)) : Step N s s'
  | finishRead (s : RingBuffer) : Step N s s.FinishRead

/-- All states reachable from `s0` by interleaved producer/consumer
operations respecting the preconditions. -/
def Reachable (N : Nat) (s0 s : RingBuffer) : Prop :=
  Relation.ReflTransGen (Step N) s0 s

/-! ## Ghost counters

The shared counters and the `base` accumulators are running totals that
wrap modulo `2 ^ 64`.  To reason about reachable states we carry ghost
unbounded counterparts: `Ghost` holds the mathematical (non-wrapped)
values, `GhostRel` says the machine state is their mod-`2 ^ 64` image, and
`GhostInv` is the inductive invariant of the protocol over the ghost
values. -/
structure Ghost where
  wbase : Nat
  rbase : Nat
  pw : Nat
  pr : Nat

def GhostRel (g : Ghost) (s : RingBuffer) : Prop :=
  s.m_Writer.base = g.wbase % W ∧ s.m_Reader.base = g.rbase % W ∧
  s.m_WriterShared = g.pw % W ∧ s.m_ReaderShared = g.pr % W

def GhostInv (N : Nat) (g : Ghost) (s : RingBuffer) : Prop :=
  s.m_Writer.size = N ∧ s.m_Reader.size = N ∧
  s.m_Writer.pos ≤ s.m_Writer.end_ ∧ s.m_Writer.end_ ≤ N ∧
  s.m_Reader.pos ≤ s.m_Reader.end_ ∧ s.m_Reader.end_ ≤ N ∧
  N ∣ g.wbase ∧ N ∣ g.rbase ∧
  g.pw ≤ g.wbase + s.m_Writer.pos ∧
  g.wbase + s.m_Writer.end_ ≤ g.pr + N ∧
  g.rbase + s.m_Reader.end_ ≤ g.pw ∧
  g.pr ≤ g.rbase + s.m_Reader.pos

/-- `wsub` on reduced values, stated over `Int`. -/
theorem wsub_mod_int (a b : Nat) :
    ((wsub (a % W) (b % W) : Nat) : Int) = ((a : Int) - b) % (W : Int) := by
  rw [wsub_int]
  have ha : ((a % W : Nat) : Int) = (a : Int) % (W : Int) := by push_cast; ring
  have hb : ((b % W : Nat) : Int) = (b : Int) % (W : Int) := by push_cast; ring
  rw [ha, hb, ← Int.sub_emod]

/-- The writer's slow-path `available` value, related to the ghost
counters. -/
theorem avail_writer_int (pr base2 N : Nat) :
    ((wadd (wsub (pr % W) (base2 % W)) N : Nat) : Int) =
      ((pr : Int) - base2 + N) % (W : Int) := by
  rw [wadd_int, wsub_mod_int, Int.add_emod, Int.emod_emod_of_dvd _ (dvd_refl _),
    ← Int.add_emod]

/-- Analysis of the signed space test on the slow path: under the ghost
bounds, a passing test means the idealized available space `D` really is
at least the requested extent, and `available` equals `D` exactly. -/
theorem slow_guard {avail e N : Nat} {D : Int}
    (hN : N ≤ 2 ^ 62) (he : e ≤ N) (hW : avail < W)
    (havail : (avail : Int) = D % (W : Int))
    (hlow : -(N : Int) ≤ D) (hhigh : D ≤ 2 * N)
    (hg : SignedSpaceTest avail e = true) :
    (e : Int) ≤ D ∧ (avail : Int) = D := by
  rw [SignedSpaceTest, decide_eq_true_eq] at hg
  have hWi : ((W : Nat) : Int) = (2 : Int) ^ 64 := by norm_num [W]
  have hte : toSigned e = (e : Int) := by
    rw [toSigned, if_pos]
    omega
  by_cases h0 : 0 ≤ D
  · have hDW : D < (W : Int) := by rw [hWi]; norm_num; omega
    have hDval : D % (W : Int) = D := Int.emod_eq_of_lt h0 hDW
    rw [hDval] at havail
    by_cases h63 : D < (2 : Int) ^ 63
    · have hav63 : avail < 2 ^ 63 := by
        have : ((avail : Nat) : Int) < (2 : Int) ^ 63 := havail ▸ h63
        exact_mod_cast this
      have htav : toSigned avail = (avail : Int) := by rw [toSigned, if_pos hav63]
      rw [hte, htav] at hg
      exact ⟨by omega, havail⟩
    · exfalso
      have hav63 : ¬ avail < 2 ^ 63 := by
        intro hc
        have : ((avail : Nat) : Int) < (2 : Int) ^ 63 := by exact_mod_cast hc
        omega
      have htav : toSigned avail = (avail : Int) - (2 : Int) ^ 64 := by
        rw [toSigned, if_neg hav63]
      rw [hte, htav] at hg
      omega
  · exfalso
    push_neg at h0
    have hDW : 0 ≤ D + (W : Int) := by rw [hWi]; omega
    have hDW2 : D + (W : Int) < (W : Int) := by omega
    have hDval : D % (W : Int) = D + W := by
      have h1 : D % (W : Int) = (D + (W : Int) * 1) % (W : Int) :=
        (Int.add_mul_emod_self_left (a := D) (b := (W : Int)) (c := 1)).symm
      rw [mul_one] at h1
      rw [h1]
      exact Int.emod_eq_of_lt hDW (by omega)
    rw [hDval] at havail
    have hav63 : ¬ avail < 2 ^ 63 := by
      intro hc
      have hc2 : ((avail : Nat) : Int) < (2 : Int) ^ 63 := by exact_mod_cast hc
      rw [havail, hWi] at hc2
      omega
    have htav : toSigned avail = (avail : Int) - (2 : Int) ^ 64 := by
      rw [toSigned, if_neg hav63]
    rw [hte, htav] at hg
    rw [havail, hWi] at hg
    omega

theorem wsub_small {x y : Nat} (hyx : y ≤ x) (hx : x < W) : wsub x y = x - y := by
  have h := wsub_of_le (x := x) (y := y) hyx (by omega)
  rwa [Nat.mod_eq_of_lt hx, Nat.mod_eq_of_lt (lt_of_le_of_lt hyx hx)] at h

theorem wadd_modl (a b : Nat) : wadd (a % W) b = (a + b) % W := by
  unfold wadd
  conv_lhs => rw [Nat.add_mod, Nat.mod_mod_of_dvd _ (dvd_refl W)]
  rw [← Nat.add_mod]

/-- Inversion of a successful write-side spin iteration. -/
theorem WriteLoopIteration_some {rb rb2 : RingBuffer} {pos e base pos2 e2 : Nat}
    (h : WriteLoopIteration rb pos e base = some (rb2, pos2, e2)) :
    pos2 = pos ∧ e2 = e ∧
    SignedSpaceTest (wadd (wsub rb.m_ReaderShared base) rb.m_Writer.size) e = true ∧
    rb2 = { rb with
      m_Writer := { rb.m_Writer with
        base := base
        end_ := min (wadd (wsub rb.m_ReaderShared base) rb.m_Writer.size)
          rb.m_Writer.size } } := by
  simp only [WriteLoopIteration] at h
  split at h
  · rename_i hg
    rw [Option.some.injEq, Prod.mk.injEq, Prod.mk.injEq] at h
    exact ⟨h.2.1.symm, h.2.2.symm, hg, h.1.symm⟩
  · exact absurd h (by simp)

/-- Inversion of a successful read-side spin iteration. -/
theorem ReadLoopIteration_some {rb rb2 : RingBuffer} {pos e base pos2 e2 : Nat}
    (h : ReadLoopIteration rb pos e base = some (rb2, pos2, e2)) :
    pos2 = pos ∧ e2 = e ∧
    SignedSpaceTest (wsub rb.m_WriterShared base) e = true ∧
    rb2 = { rb with
      m_Reader := { rb.m_Reader with
        base := base
        end_ := min (wsub rb.m_WriterShared base) rb.m_Reader.size } } := by
  simp only [ReadLoopIteration] at h
  split at h
  · rename_i hg
    rw [Option.some.injEq, Prod.mk.injEq, Prod.mk.injEq] at h
    exact ⟨h.2.1.symm, h.2.2.symm, hg, h.1.symm⟩
  · exact absurd h (by simp)

theorem Initialize_ok {rb : RingBuffer} {rcl cl b N : Nat} {s : RingBuffer}
    (h : Initialize rb rcl cl b N = (s, none)) :
    rcl = cl ∧ b % cl = 0 ∧ is_power_of_two N = true ∧ s = initState b N := by
  unfold Initialize at h
  split at h
  · simp at h
  · split at h
    · simp at h
    · split at h
      · simp at h
      · rename_i h1 h2 h3
        refine ⟨by omega, by omega, by simpa using h3, ?_⟩
        have := congrArg Prod.fst h
        simp [Reset, ReattachReader, ReattachWriter, initState, LocalState.zeroed] at this ⊢
        exact this.symm

/-- Preservation of the ghost relation and invariant across a successful
writer slow path followed by the `m_Writer.pos = end` store of
`PrepareWrite`. -/
theorem GetWrite_preserve {N sz al : Nat} (hN : N ≤ 2 ^ 62) {s rb2 : RingBuffer}
    {pos2 e2 : Nat} {g : Ghost}
    (hrel : GhostRel g s) (hinv : GhostInv N g s)
    (hpal : s.m_Writer.pos ≤ al) (hsz : sz ≤ N) (halW : al + sz < W)
    (hG : s.GetBufferSpaceToWriteTo al (al + sz) = some (rb2, pos2, e2)) :
    ∃ g2 : Ghost,
      GhostRel g2 { rb2 with m_Writer := { rb2.m_Writer with pos := e2 } } ∧
      GhostInv N g2 { rb2 with m_Writer := { rb2.m_Writer with pos := e2 } } := by
  obtain ⟨hrw, hrr, hrpw, hrpr⟩ := hrel
  obtain ⟨hsW, hsR, hi1, hi2, hi3, hi4, hdw, hdr, hg3, hg4, hg5, hg6⟩ := hinv
  have hprpw : g.pr ≤ g.pw := by omega
  unfold RingBuffer.GetBufferSpaceToWriteTo at hG
  split at hG
  · -- wrap branch: end -= pos; pos = 0; base += size
    rename_i hwrap
    rw [wsub_small (Nat.le_add_right al sz) halW, Nat.add_sub_cancel_left] at hG
    obtain ⟨hpos2, he2, hguard, hrb2⟩ := WriteLoopIteration_some hG
    subst hpos2
    subst e2
    subst hrb2
    have hbase2 : wadd s.m_Writer.base s.m_Writer.size = (g.wbase + N) % W := by
      rw [hrw, hsW]
      exact wadd_modl _ _
    have havail :
        ((wadd (wsub s.m_ReaderShared (wadd s.m_Writer.base s.m_Writer.size))
            s.m_Writer.size : Nat) : Int) =
          ((g.pr : Int) - ((g.wbase : Int) + (N : Int)) + (N : Int)) % (W : Int) := by
      rw [hrpr, hbase2, hsW]
      have h := avail_writer_int g.pr (g.wbase + N) N
      push_cast at h ⊢
      exact h
    have hlow : -((N : Nat) : Int) ≤ (g.pr : Int) - ((g.wbase : Int) + (N : Int)) + (N : Int) := by
      omega
    have hhigh : (g.pr : Int) - ((g.wbase : Int) + (N : Int)) + (N : Int) ≤ 2 * ((N : Nat) : Int) := by
      omega
    obtain ⟨hge, havD⟩ := slow_guard hN hsz (wadd_lt _ _) havail hlow hhigh hguard
    set avail := wadd (wsub s.m_ReaderShared (wadd s.m_Writer.base s.m_Writer.size))
      s.m_Writer.size with havset
    have hWB : g.wbase + avail = g.pr := by
      have h1 : ((g.wbase : Int) + (avail : Int)) = (g.pr : Int) := by
        rw [havD]
        ring
      exact_mod_cast h1
    have hgeN : sz ≤ avail := by
      have h2 := hge
      rw [← havD] at h2
      exact_mod_cast h2
    have hposE : sz ≤ min avail s.m_Writer.size := by
      rw [hsW]
      exact le_min hgeN hsz
    have hE : min avail s.m_Writer.size ≤ N := by
      rw [hsW]
      exact min_le_right _ _
    have hminav : min avail s.m_Writer.size ≤ avail := min_le_left _ _
    have c7 : N ∣ g.wbase + N := dvd_add hdw dvd_rfl
    have c9 : g.pw ≤ (g.wbase + N) + sz := by omega
    have c10 : (g.wbase + N) + min avail s.m_Writer.size ≤ g.pr + N := by omega
    refine ⟨⟨g.wbase + N, g.rbase, g.pw, g.pr⟩, ⟨hbase2, hrr, hrpw, hrpr⟩,
      hsW, hsR, hposE, hE, hi3, hi4, c7, hdr, c9, c10, hg5, hg6⟩
  · -- no-wrap branch
    rename_i hwrap
    have he : al + sz ≤ N := by
      rw [hsW] at hwrap
      omega
    obtain ⟨hpos2, he2, hguard, hrb2⟩ := WriteLoopIteration_some hG
    subst pos2
    subst e2
    subst hrb2
    have havail :
        ((wadd (wsub s.m_ReaderShared s.m_Writer.base) s.m_Writer.size : Nat) : Int) =
          ((g.pr : Int) - (g.wbase : Int) + (N : Int)) % (W : Int) := by
      rw [hrpr, hrw, hsW]
      have h := avail_writer_int g.pr g.wbase N
      push_cast at h ⊢
      exact h
    have hlow : -((N : Nat) : Int) ≤ (g.pr : Int) - (g.wbase : Int) + (N : Int) := by
      omega
    have hhigh : (g.pr : Int) - (g.wbase : Int) + (N : Int) ≤ 2 * ((N : Nat) : Int) := by
      omega
    obtain ⟨hge, havD⟩ := slow_guard hN he (wadd_lt _ _) havail hlow hhigh hguard
    set avail := wadd (wsub s.m_ReaderShared s.m_Writer.base) s.m_Writer.size with havset
    have hWB : g.wbase + avail = g.pr + N := by
      have h1 : ((g.wbase : Int) + (avail : Int)) = (g.pr : Int) + (N : Int) := by
        rw [havD]
        ring
      exact_mod_cast h1
    have hgeN : al + sz ≤ avail := by
      have h2 := hge
      rw [← havD] at h2
      exact_mod_cast h2
    have hposE : al + sz ≤ min avail s.m_Writer.size := by
      rw [hsW]
      exact le_min hgeN he
    have hE : min avail s.m_Writer.size ≤ N := by
      rw [hsW]
      exact min_le_right _ _
    have hminav : min avail s.m_Writer.size ≤ avail := min_le_left _ _
    have c9 : g.pw ≤ g.wbase + (al + sz) := by omega
    have c10 : g.wbase + min avail s.m_Writer.size ≤ g.pr + N := by omega
    refine ⟨⟨g.wbase, g.rbase, g.pw, g.pr⟩, ⟨hrw, hrr, hrpw, hrpr⟩,
      hsW, hsR, hposE, hE, hi3, hi4, hdw, hdr, c9, c10, hg5, hg6⟩

/-- Preservation of the ghost relation and invariant across a successful
reader slow path followed by the `m_Reader.pos = end` store of
`PrepareRead`. -/
theorem GetRead_preserve {N sz al : Nat} (hN : N ≤ 2 ^ 62) {s rb2 : RingBuffer}
    {pos2 e2 : Nat} {g : Ghost}
    (hrel : GhostRel g s) (hinv : GhostInv N g s)
    (hpal : s.m_Reader.pos ≤ al) (hsz : sz ≤ N) (halW : al + sz < W)
    (hG : s.GetBufferSpaceToReadFrom al (al + sz) = some (rb2, pos2, e2)) :
    ∃ g2 : Ghost,
      GhostRel g2 { rb2 with m_Reader := { rb2.m_Reader with pos := e2 } } ∧
      GhostInv N g2 { rb2 with m_Reader := { rb2.m_Reader with pos := e2 } } := by
  obtain ⟨hrw, hrr, hrpw, hrpr⟩ := hrel
  obtain ⟨hsW, hsR, hi1, hi2, hi3, hi4, hdw, hdr, hg3, hg4, hg5, hg6⟩ := hinv
  have hprpw : g.pr ≤ g.pw := by omega
  have hpwhigh : g.pw ≤ g.pr + N := by omega
  unfold RingBuffer.GetBufferSpaceToReadFrom at hG
  split at hG
  · -- wrap branch
    rename_i hwrap
    rw [wsub_small (Nat.le_add_right al sz) halW, Nat.add_sub_cancel_left] at hG
    obtain ⟨hpos2, he2, hguard, hrb2⟩ := ReadLoopIteration_some hG
    subst pos2
    subst e2
    subst hrb2
    have hbase2 : wadd s.m_Reader.base s.m_Reader.size = (g.rbase + N) % W := by
      rw [hrr, hsR]
      exact wadd_modl _ _
    have havail :
        ((wsub s.m_WriterShared (wadd s.m_Reader.base s.m_Reader.size) : Nat) : Int) =
          ((g.pw : Int) - ((g.rbase : Int) + (N : Int))) % (W : Int) := by
      rw [hrpw, hbase2]
      have h := wsub_mod_int g.pw (g.rbase + N)
      push_cast at h ⊢
      exact h
    have hlow : -((N : Nat) : Int) ≤ (g.pw : Int) - ((g.rbase : Int) + (N : Int)) := by
      omega
    have hhigh : (g.pw : Int) - ((g.rbase : Int) + (N : Int)) ≤ 2 * ((N : Nat) : Int) := by
      omega
    obtain ⟨hge, havD⟩ := slow_guard hN hsz (wsub_lt _ _) havail hlow hhigh hguard
    set avail := wsub s.m_WriterShared (wadd s.m_Reader.base s.m_Reader.size) with havset
    have hWB : (g.rbase + N) + avail = g.pw := by
      have h1 : ((g.rbase : Int) + (N : Int)) + (avail : Int) = (g.pw : Int) := by
        rw [havD]
        ring
      exact_mod_cast h1
    have hgeN : sz ≤ avail := by
      have h2 := hge
      rw [← havD] at h2
      exact_mod_cast h2
    have hposE : sz ≤ min avail s.m_Reader.size := by
      rw [hsR]
      exact le_min hgeN hsz
    have hE : min avail s.m_Reader.size ≤ N := by
      rw [hsR]
      exact min_le_right _ _
    have hminav : min avail s.m_Reader.size ≤ avail := min_le_left _ _
    have c8 : N ∣ g.rbase + N := dvd_add hdr dvd_rfl
    have c11 : (g.rbase + N) + min avail s.m_Reader.size ≤ g.pw := by omega
    have c12 : g.pr ≤ (g.rbase + N) + sz := by omega
    refine ⟨⟨g.wbase, g.rbase + N, g.pw, g.pr⟩, ⟨hrw, hbase2, hrpw, hrpr⟩,
      hsW, hsR, hi1, hi2, hposE, hE, hdw, c8, hg3, hg4, c11, c12⟩
  · -- no-wrap branch
    rename_i hwrap
    have he : al + sz ≤ N := by
      rw [hsR] at hwrap
      omega
    obtain ⟨hpos2, he2, hguard, hrb2⟩ := ReadLoopIteration_some hG
    subst pos2
    subst e2
    subst hrb2
    have havail :
        ((wsub s.m_WriterShared s.m_Reader.base : Nat) : Int) =
          ((g.pw : Int) - (g.rbase : Int)) % (W : Int) := by
      rw [hrpw, hrr]
      exact wsub_mod_int g.pw g.rbase
    have hlow : -((N : Nat) : Int) ≤ (g.pw : Int) - (g.rbase : Int) := by
      omega
    have hhigh : (g.pw : Int) - (g.rbase : Int) ≤ 2 * ((N : Nat) : Int) := by
      omega
    obtain ⟨hge, havD⟩ := slow_guard hN he (wsub_lt _ _) havail hlow hhigh hguard
    set avail := wsub s.m_WriterShared s.m_Reader.base with havset
    have hWB : g.rbase + avail = g.pw := by
      have h1 : (g.rbase : Int) + (avail : Int) = (g.pw : Int) := by
        rw [havD]
        ring
      exact_mod_cast h1
    have hgeN : al + sz ≤ avail := by
      have h2 := hge
      rw [← havD] at h2
      exact_mod_cast h2
    have hposE : al + sz ≤ min avail s.m_Reader.size := by
      rw [hsR]
      exact le_min hgeN he
    have hE : min avail s.m_Reader.size ≤ N := by
      rw [hsR]
      exact min_le_right _ _
    have hminav : min avail s.m_Reader.size ≤ avail := min_le_left _ _
    have c11 : g.rbase + min avail s.m_Reader.size ≤ g.pw := by omega
    have c12 : g.pr ≤ g.rbase + (al + sz) := by omega
    refine ⟨⟨g.wbase, g.rbase, g.pw, g.pr⟩, ⟨hrw, hrr, hrpw, hrpr⟩,
      hsW, hsR, hi1, hi2, hposE, hE, hdw, hdr, hg3, hg4, c11, c12⟩

theorem prepareWrite_preserve {N : Nat} (hN : N ≤ 2 ^ 62) {s s' : RingBuffer}
    {sz a addr : Nat} (hsz : sz ≤ N) (ha : is_power_of_two a = true) (haW : a < W)
    {g : Ghost} (hrel : GhostRel g s) (hinv : GhostInv N g s)
    (h : s.PrepareWrite sz a = some (s', addr)) :
    ∃ g2, GhostRel g2 s' ∧ GhostInv N g2 s' := by
  obtain ⟨k, rfl⟩ := pow2_exists ha
  have hk : k ≤ 63 := pow2_le_63 rfl haW
  have h2k : 2 ^ k ≤ 2 ^ 63 := Nat.pow_le_pow_right (by norm_num) hk
  have hposN : s.m_Writer.pos ≤ N := le_trans hinv.2.2.1 hinv.2.2.2.1
  have hWval : W = 2 ^ 64 := rfl
  have hpW : s.m_Writer.pos + (2 ^ k - 1) < W := by omega
  have hal1 : s.m_Writer.pos ≤ Align s.m_Writer.pos (2 ^ k) := Align_ge hk _ hpW
  have hal2 : Align s.m_Writer.pos (2 ^ k) ≤ s.m_Writer.pos + (2 ^ k - 1) :=
    Align_le hk _ hpW
  have halW : Align s.m_Writer.pos (2 ^ k) + sz < W := by omega
  have heq : (Align s.m_Writer.pos (2 ^ k) + sz) % W = Align s.m_Writer.pos (2 ^ k) + sz :=
    Nat.mod_eq_of_lt halW
  simp only [RingBuffer.PrepareWrite] at h
  rw [heq] at h
  split at h
  · -- slow path
    cases hG : s.GetBufferSpaceToWriteTo (Align s.m_Writer.pos (2 ^ k))
        (Align s.m_Writer.pos (2 ^ k) + sz) with
    | none =>
        rw [hG] at h
        simp at h
    | some trip =>
        obtain ⟨rb2, pos2, e2⟩ := trip
        rw [hG] at h
        simp only [Option.some.injEq, Prod.mk.injEq] at h
        obtain ⟨hs', haddr⟩ := h
        subst hs'
        exact GetWrite_preserve hN hrel hinv hal1 hsz halW hG
  · -- fast path
    rename_i hfast
    simp only [Option.some.injEq, Prod.mk.injEq] at h
    obtain ⟨hs', haddr⟩ := h
    subst hs'
    obtain ⟨hrw, hrr, hrpw, hrpr⟩ := hrel
    obtain ⟨hsW, hsR, hi1, hi2, hi3, hi4, hdw, hdr, hg3, hg4, hg5, hg6⟩ := hinv
    push_neg at hfast
    have c3 : Align s.m_Writer.pos (2 ^ k) + sz ≤ s.m_Writer.end_ := hfast
    have c9 : g.pw ≤ g.wbase + (Align s.m_Writer.pos (2 ^ k) + sz) := by omega
    exact ⟨g, ⟨hrw, hrr, hrpw, hrpr⟩,
      hsW, hsR, c3, hi2, hi3, hi4, hdw, hdr, c9, hg4, hg5, hg6⟩

theorem prepareRead_preserve {N : Nat} (hN : N ≤ 2 ^ 62) {s s' : RingBuffer}
    {sz a addr : Nat} (hsz : sz ≤ N) (ha : is_power_of_two a = true) (haW : a < W)
    {g : Ghost} (hrel : GhostRel g s) (hinv : GhostInv N g s)
    (h : s.PrepareRead sz a = some (s', addr)) :
    ∃ g2, GhostRel g2 s' ∧ GhostInv N g2 s' := by
  obtain ⟨k, rfl⟩ := pow2_exists ha
  have hk : k ≤ 63 := pow2_le_63 rfl haW
  have h2k : 2 ^ k ≤ 2 ^ 63 := Nat.pow_le_pow_right (by norm_num) hk
  have hposN : s.m_Reader.pos ≤ N := le_trans hinv.2.2.2.2.1 hinv.2.2.2.2.2.1
  have hWval : W = 2 ^ 64 := rfl
  have hpW : s.m_Reader.pos + (2 ^ k - 1) < W := by omega
  have hal1 : s.m_Reader.pos ≤ Align s.m_Reader.pos (2 ^ k) := Align_ge hk _ hpW
  have hal2 : Align s.m_Reader.pos (2 ^ k) ≤ s.m_Reader.pos + (2 ^ k - 1) :=
    Align_le hk _ hpW
  have halW : Align s.m_Reader.pos (2 ^ k) + sz < W := by omega
  have heq : (Align s.m_Reader.pos (2 ^ k) + sz) % W = Align s.m_Reader.pos (2 ^ k) + sz :=
    Nat.mod_eq_of_lt halW
  simp only [RingBuffer.PrepareRead] at h
  rw [heq] at h
  split at h
  · -- slow path
    cases hG : s.GetBufferSpaceToReadFrom (Align s.m_Reader.pos (2 ^ k))
        (Align s.m_Reader.pos (2 ^ k) + sz) with
    | none =>
        rw [hG] at h
        simp at h
    | some trip =>
        obtain ⟨rb2, pos2, e2⟩ := trip
        rw [hG] at h
        simp only [Option.some.injEq, Prod.mk.injEq] at h
        obtain ⟨hs', haddr⟩ := h
        subst hs'
        exact GetRead_preserve hN hrel hinv hal1 hsz halW hG
  · -- fast path
    rename_i hfast
    simp only [Option.some.injEq, Prod.mk.injEq] at h
    obtain ⟨hs', haddr⟩ := h
    subst hs'
    obtain ⟨hrw, hrr, hrpw, hrpr⟩ := hrel
    obtain ⟨hsW, hsR, hi1, hi2, hi3, hi4, hdw, hdr, hg3, hg4, hg5, hg6⟩ := hinv
    push_neg at hfast
    have c5 : Align s.m_Reader.pos (2 ^ k) + sz ≤ s.m_Reader.end_ := hfast
    have c12 : g.pr ≤ g.rbase + (Align s.m_Reader.pos (2 ^ k) + sz) := by omega
    exact ⟨g, ⟨hrw, hrr, hrpw, hrpr⟩,
      hsW, hsR, hi1, hi2, c5, hi4, hdw, hdr, hg3, hg4, hg5, c12⟩

theorem finishWrite_preserve {N : Nat} {s : RingBuffer} {g : Ghost}
    (hrel : GhostRel g s) (hinv : GhostInv N g s) :
    ∃ g2, GhostRel g2 s.FinishWrite ∧ GhostInv N g2 s.FinishWrite := by
  obtain ⟨hrw, hrr, hrpw, hrpr⟩ := hrel
  obtain ⟨hsW, hsR, hi1, hi2, hi3, hi4, hdw, hdr, hg3, hg4, hg5, hg6⟩ := hinv
  have hsh : wadd s.m_Writer.base s.m_Writer.pos = (g.wbase + s.m_Writer.pos) % W := by
    rw [hrw]
    exact wadd_modl _ _
  have c11 : g.rbase + s.m_Reader.end_ ≤ g.wbase + s.m_Writer.pos := by omega
  exact ⟨⟨g.wbase, g.rbase, g.wbase + s.m_Writer.pos, g.pr⟩, ⟨hrw, hrr, hsh, hrpr⟩,
    hsW, hsR, hi1, hi2, hi3, hi4, hdw, hdr, le_refl _, hg4, c11, hg6⟩

theorem finishRead_preserve {N : Nat} {s : RingBuffer} {g : Ghost}
    (hrel : GhostRel g s) (hinv : GhostInv N g s) :
    ∃ g2, GhostRel g2 s.FinishRead ∧ GhostInv N g2 s.FinishRead := by
  obtain ⟨hrw, hrr, hrpw, hrpr⟩ := hrel
  obtain ⟨hsW, hsR, hi1, hi2, hi3, hi4, hdw, hdr, hg3, hg4, hg5, hg6⟩ := hinv
  have hsh : wadd s.m_Reader.base s.m_Reader.pos = (g.rbase + s.m_Reader.pos) % W := by
    rw [hrr]
    exact wadd_modl _ _
  have c10 : g.wbase + s.m_Writer.end_ ≤ (g.rbase + s.m_Reader.pos) + N := by omega
  exact ⟨⟨g.wbase, g.rbase, g.pw, g.rbase + s.m_Reader.pos⟩, ⟨hrw, hrr, hrpw, hsh⟩,
    hsW, hsR, hi1, hi2, hi3, hi4, hdw, hdr, hg3, c10, hg5, le_refl _⟩

/-- Every state reachable from a successful `Initialize` (with capacity
at most `2 ^ 62`) is the image of ghost counters satisfying the protocol
invariant. -/
theorem reachable_ghost {N b : Nat} (hN : N ≤ 2 ^ 62) {s : RingBuffer}
    (h : Reachable N (initState b N) s) :
    ∃ g, GhostRel g s ∧ GhostInv N g s := by
  induction h with
  | refl =>
      refine ⟨⟨0, 0, 0, 0⟩, ⟨?_, ?_, ?_, ?_⟩,
        rfl, rfl, ?_, ?_, ?_, ?_, ?_, ?_, ?_, ?_, ?_, ?_⟩ <;>
        simp [initState]
  | tail hr hstep ih =>
      obtain ⟨g, hrel, hinv⟩ := ih
      cases hstep with
      | prepareWrite s' sz a addr hsz ha haW hP =>
          exact prepareWrite_preserve hN hsz ha haW hrel hinv hP
      | finishWrite => exact finishWrite_preserve hrel hinv
      | prepareRead s' sz a addr hsz ha haW hP =>
          exact prepareRead_preserve hN hsz ha haW hrel hinv hP
      | finishRead => exact finishRead_preserve hrel hinv

/-! ## Claim C2: capacity bound -/

/-- C2 (amended): in every state reachable from a successful
`Initialize(buffer, N)` with `N ≤ 2 ^ 62` by any interleaving of
`PrepareWrite`/`FinishWrite` and `PrepareRead`/`FinishRead` respecting the
preconditions (each reservation size ≤ N, power-of-two alignment), the
signed difference `producer_shared.pos - consumer_shared.pos` lies in
`[0, N]`.  (The original claim, with no bound on `N`, fails at
`N = 2 ^ 63`; see the counterexample.) -/
theorem C2_capacity_bound (rb0 : RingBuffer) (rcl cl b N : Nat)
    (s0 s : RingBuffer) (hinit : Initialize rb0 rcl cl b N = (s0, none))
    (hN : N ≤ 2 ^ 62) (hreach : Reachable N s0 s) :
    0 ≤ toSigned (wsub s.m_WriterShared s.m_ReaderShared) ∧
    toSigned (wsub s.m_WriterShared s.m_ReaderShared) ≤ (N : Int) := by
  obtain ⟨-, -, hpow, rfl⟩ := Initialize_ok hinit
  obtain ⟨g, ⟨hrw, hrr, hrpw, hrpr⟩, hinv⟩ := reachable_ghost hN hreach
  obtain ⟨hsW, hsR, hi1, hi2, hi3, hi4, hdw, hdr, hg3, hg4, hg5, hg6⟩ := hinv
  have hWval : W = 2 ^ 64 := rfl
  have hple : g.pr ≤ g.pw := by omega
  have hdiff : g.pw - g.pr ≤ N := by omega
  have hsub : wsub s.m_WriterShared s.m_ReaderShared = g.pw - g.pr := by
    rw [hrpw, hrpr]
    exact wsub_of_le hple (by omega)
  rw [hsub, toSigned, if_pos (by omega)]
  exact ⟨by positivity, by exact_mod_cast hdiff⟩

theorem C2_capacity_bound_witness :
    Initialize ⟨LocalState.zeroed, LocalState.zeroed, 0, 0⟩ 64 64 0 16 =
      (initState 0 16, none) ∧
    (16 : Nat) ≤ 2 ^ 62 ∧
    Reachable 16 (initState 0 16) (initState 0 16) ∧
    (0 ≤ toSigned (wsub (initState 0 16).m_WriterShared (initState 0 16).m_ReaderShared) ∧
      toSigned (wsub (initState 0 16).m_WriterShared (initState 0 16).m_ReaderShared) ≤
        ((16 : Nat) : Int)) :=
  ⟨by decide, by norm_num, Relation.ReflTransGen.refl,
    C2_capacity_bound ⟨LocalState.zeroed, LocalState.zeroed, 0, 0⟩ 64 64 0 16
      (initState 0 16) (initState 0 16) (by decide) (by norm_num)
      Relation.ReflTransGen.refl⟩

/-- C2 counterexample: at `N = 2 ^ 63` (which `Initialize` accepts as a
power of two), a single `PrepareWrite(2 ^ 63, 1)` followed by `FinishWrite`
yields `producer_shared - consumer_shared = 2 ^ 63`, whose signed
(`ptrdiff_t`) value is `-2 ^ 63 < 0`: the claim as stated is false. -/
theorem C2_capacity_bound_cex :
    ¬ (∀ (rb0 : RingBuffer) (rcl cl b N : Nat) (s0 s : RingBuffer),
        Initialize rb0 rcl cl b N = (s0, none) → Reachable N s0 s →
        0 ≤ toSigned (wsub s.m_WriterShared s.m_ReaderShared) ∧
        toSigned (wsub s.m_WriterShared s.m_ReaderShared) ≤ (N : Int)) := by
  intro hclaim
  have hstep1 : (initState 0 (2 ^ 63)).PrepareWrite (2 ^ 63) 1 =
      some (⟨⟨0, 2 ^ 63, 2 ^ 63, 0, 2 ^ 63⟩, ⟨0, 0, 0, 0, 2 ^ 63⟩, 0, 0⟩, 0) := by
    decide
  have hreach : Reachable (2 ^ 63) (initState 0 (2 ^ 63))
      (RingBuffer.FinishWrite
        ⟨⟨0, 2 ^ 63, 2 ^ 63, 0, 2 ^ 63⟩, ⟨0, 0, 0, 0, 2 ^ 63⟩, 0, 0⟩) :=
    Relation.ReflTransGen.tail
      (Relation.ReflTransGen.tail Relation.ReflTransGen.refl
        (Step.prepareWrite _ _ _ _ _ (le_refl _) (by decide) (by decide) hstep1))
      (Step.finishWrite _)
  have h := hclaim ⟨LocalState.zeroed, LocalState.zeroed, 0, 0⟩ 64 64 0 (2 ^ 63)
    (initState 0 (2 ^ 63)) _ (by decide) hreach
  exact absurd h.1 (by decide)

/-! ## Claim C7: local-state invariant -/

/-- C7 (amended): in every state reachable from a successful
`Initialize(buffer, N)` with `N ≤ 2 ^ 62` under the stated preconditions
(reservation size ≤ N, power-of-two alignment), each view's local state
satisfies `0 ≤ pos ≤ size`, `pos ≤ end ≤ size`, and `base` is a multiple
of `size`.  (The original claim, with no bound on `N`, fails at
`N = 2 ^ 63`; see the counterexample.) -/
theorem C7_local_state_invariant (rb0 : RingBuffer) (rcl cl b N : Nat)
    (s0 s : RingBuffer) (hinit : Initialize rb0 rcl cl b N = (s0, none))
    (hN : N ≤ 2 ^ 62) (hreach : Reachable N s0 s) :
    (s.m_Writer.pos ≤ N ∧ s.m_Writer.pos ≤ s.m_Writer.end_ ∧
      s.m_Writer.end_ ≤ N ∧ s.m_Writer.base % N = 0) ∧
    (s.m_Reader.pos ≤ N ∧ s.m_Reader.pos ≤ s.m_Reader.end_ ∧
      s.m_Reader.end_ ≤ N ∧ s.m_Reader.base % N = 0) := by
  obtain ⟨-, -, hpow, rfl⟩ := Initialize_ok hinit
  obtain ⟨g, ⟨hrw, hrr, hrpw, hrpr⟩, hinv⟩ := reachable_ghost hN hreach
  obtain ⟨hsW, hsR, hi1, hi2, hi3, hi4, hdw, hdr, hg3, hg4, hg5, hg6⟩ := hinv
  obtain ⟨j, hj⟩ := pow2_exists hpow
  have hNpos : 0 < N := by
    rw [hj]
    exact Nat.pos_pow_of_pos _ (by norm_num)
  have hj62 : j ≤ 62 := by
    have h1 : 2 ^ j ≤ 2 ^ 62 := hj ▸ hN
    exact (Nat.pow_le_pow_iff_right (by norm_num)).mp h1
  have hNW : N ∣ W := by
    rw [hj]
    exact pow_dvd_pow 2 (by omega)
  have hbw : N ∣ s.m_Writer.base := by
    rw [hrw]
    exact (Nat.dvd_mod_iff hNW).mpr hdw
  have hbr : N ∣ s.m_Reader.base := by
    rw [hrr]
    exact (Nat.dvd_mod_iff hNW).mpr hdr
  exact ⟨⟨by omega, hi1, hi2, Nat.mod_eq_zero_of_dvd hbw⟩,
    ⟨by omega, hi3, hi4, Nat.mod_eq_zero_of_dvd hbr⟩⟩

theorem C7_local_state_invariant_witness :
    Initialize ⟨LocalState.zeroed, LocalState.zeroed, 0, 0⟩ 64 64 0 16 =
      (initState 0 16, none) ∧
    (16 : Nat) ≤ 2 ^ 62 ∧
    Reachable 16 (initState 0 16) (initState 0 16) ∧
    (((initState 0 16).m_Writer.pos ≤ 16 ∧
        (initState 0 16).m_Writer.pos ≤ (initState 0 16).m_Writer.end_ ∧
        (initState 0 16).m_Writer.end_ ≤ 16 ∧
        (initState 0 16).m_Writer.base % 16 = 0) ∧
      ((initState 0 16).m_Reader.pos ≤ 16 ∧
        (initState 0 16).m_Reader.pos ≤ (initState 0 16).m_Reader.end_ ∧
        (initState 0 16).m_Reader.end_ ≤ 16 ∧
        (initState 0 16).m_Reader.base % 16 = 0)) :=
  ⟨by decide, by norm_num, Relation.ReflTransGen.refl,
    C7_local_state_invariant ⟨LocalState.zeroed, LocalState.zeroed, 0, 0⟩ 64 64 0 16
      (initState 0 16) (initState 0 16) (by decide) (by norm_num)
      Relation.ReflTransGen.refl⟩

/-- C7 counterexample: at `N = 2 ^ 63`, a single `PrepareRead(2 ^ 63, 1)`
on the empty buffer succeeds without spinning (the signed space test
passes because `toSigned (2 ^ 63) = -2 ^ 63 ≤ 0 = toSigned available`),
leaving the reader with `pos = 2 ^ 63 > end = 0`: the claim as stated is
false. -/
theorem C7_local_state_invariant_cex :
    ¬ (∀ (rb0 : RingBuffer) (rcl cl b N : Nat) (s0 s : RingBuffer),
        Initialize rb0 rcl cl b N = (s0, none) → Reachable N s0 s →
        (s.m_Writer.pos ≤ N ∧ s.m_Writer.pos ≤ s.m_Writer.end_ ∧
          s.m_Writer.end_ ≤ N ∧ s.m_Writer.base % N = 0) ∧
        (s.m_Reader.pos ≤ N ∧ s.m_Reader.pos ≤ s.m_Reader.end_ ∧
          s.m_Reader.end_ ≤ N ∧ s.m_Reader.base % N = 0)) := by
  intro hclaim
  have hstep1 : (initState 0 (2 ^ 63)).PrepareRead (2 ^ 63) 1 =
      some (⟨⟨0, 0, 2 ^ 63, 0, 2 ^ 63⟩, ⟨0, 2 ^ 63, 0, 0, 2 ^ 63⟩, 0, 0⟩, 0) := by
    decide
  have hreach : Reachable (2 ^ 63) (initState 0 (2 ^ 63))
      ⟨⟨0, 0, 2 ^ 63, 0, 2 ^ 63⟩, ⟨0, 2 ^ 63, 0, 0, 2 ^ 63⟩, 0, 0⟩ :=
    Relation.ReflTransGen.tail Relation.ReflTransGen.refl
      (Step.prepareRead _ _ _ _ _ (le_refl _) (by decide) (by decide) hstep1)
  have h := hclaim ⟨LocalState.zeroed, LocalState.zeroed, 0, 0⟩ 64 64 0 (2 ^ 63)
    (initState 0 (2 ^ 63)) _ (by decide) hreach
  exact absurd h.2.2.1 (by decide)

/-! ## Claim C8: monotone publication -/

/-- C8 (amended): in every state reachable from a successful
`Initialize(buffer, N)` with `N ≤ 2 ^ 62`, the value the next
`FinishWrite` (resp. `FinishRead`) stores into its side's shared counter
exceeds the previously stored value by a signed (`ptrdiff_t`) increment in
`[0, N]`: the published running totals are non-decreasing in the
wrap-aware signed sense.  (The raw 64-bit stored values can wrap around
`2 ^ 64` and hence decrease; see the counterexample.) -/
theorem C8_monotone_publication (rb0 : RingBuffer) (rcl cl b N : Nat)
    (s0 s : RingBuffer) (hinit : Initialize rb0 rcl cl b N = (s0, none))
    (hN : N ≤ 2 ^ 62) (hreach : Reachable N s0 s) :
    (0 ≤ toSigned (wsub s.FinishWrite.m_WriterShared s.m_WriterShared) ∧
      toSigned (wsub s.FinishWrite.m_WriterShared s.m_WriterShared) ≤ (N : Int)) ∧
    (0 ≤ toSigned (wsub s.FinishRead.m_ReaderShared s.m_ReaderShared) ∧
      toSigned (wsub s.FinishRead.m_ReaderShared s.m_ReaderShared) ≤ (N : Int)) := by
  obtain ⟨-, -, hpow, rfl⟩ := Initialize_ok hinit
  obtain ⟨g, ⟨hrw, hrr, hrpw, hrpr⟩, hinv⟩ := reachable_ghost hN hreach
  obtain ⟨hsW, hsR, hi1, hi2, hi3, hi4, hdw, hdr, hg3, hg4, hg5, hg6⟩ := hinv
  have hWval : W = 2 ^ 64 := rfl
  have hple : g.pr ≤ g.pw := by omega
  constructor
  · have hnext : s.FinishWrite.m_WriterShared = (g.wbase + s.m_Writer.pos) % W := by
      show wadd s.m_Writer.base s.m_Writer.pos = _
      rw [hrw]
      exact wadd_modl _ _
    have hhi : g.wbase + s.m_Writer.pos ≤ g.pw + N := by omega
    have hsub : wsub s.FinishWrite.m_WriterShared s.m_WriterShared =
        (g.wbase + s.m_Writer.pos) - g.pw := by
      rw [hnext, hrpw]
      exact wsub_of_le hg3 (by omega)
    rw [hsub, toSigned, if_pos (by omega)]
    exact ⟨by positivity, by
      have : g.wbase + s.m_Writer.pos - g.pw ≤ N := by omega
      exact_mod_cast this⟩
  · have hnext : s.FinishRead.m_ReaderShared = (g.rbase + s.m_Reader.pos) % W := by
      show wadd s.m_Reader.base s.m_Reader.pos = _
      rw [hrr]
      exact wadd_modl _ _
    have hhi : g.rbase + s.m_Reader.pos ≤ g.pr + N := by omega
    have hsub : wsub s.FinishRead.m_ReaderShared s.m_ReaderShared =
        (g.rbase + s.m_Reader.pos) - g.pr := by
      rw [hnext, hrpr]
      exact wsub_of_le hg6 (by omega)
    rw [hsub, toSigned, if_pos (by omega)]
    exact ⟨by positivity, by
      have : g.rbase + s.m_Reader.pos - g.pr ≤ N := by omega
      exact_mod_cast this⟩

theorem C8_monotone_publication_witness :
    Initialize ⟨LocalState.zeroed, LocalState.zeroed, 0, 0⟩ 64 64 0 16 =
      (initState 0 16, none) ∧
    (16 : Nat) ≤ 2 ^ 62 ∧
    Reachable 16 (initState 0 16) (initState 0 16) ∧
    ((0 ≤ toSigned (wsub (initState 0 16).FinishWrite.m_WriterShared
        (initState 0 16).m_WriterShared) ∧
      toSigned (wsub (initState 0 16).FinishWrite.m_WriterShared
        (initState 0 16).m_WriterShared) ≤ ((16 : Nat) : Int)) ∧
     (0 ≤ toSigned (wsub (initState 0 16).FinishRead.m_ReaderShared
        (initState 0 16).m_ReaderShared) ∧
      toSigned (wsub (initState 0 16).FinishRead.m_ReaderShared
        (initState 0 16).m_ReaderShared) ≤ ((16 : Nat) : Int))) :=
  ⟨by decide, by norm_num, Relation.ReflTransGen.refl,
    C8_monotone_publication ⟨LocalState.zeroed, LocalState.zeroed, 0, 0⟩ 64 64 0 16
      (initState 0 16) (initState 0 16) (by decide) (by norm_num)
      Relation.ReflTransGen.refl⟩

/-- C8 counterexample: with `N = 2 ^ 62`, four epochs of full-buffer
writes and reads drive the producer's epoch accumulator to `4 N = 2 ^ 64`,
which wraps to `0`: the fourteenth operation (a `FinishWrite`) stores `0`
after having previously stored `3 * 2 ^ 62`, so the raw stored `size_t`
values are not a non-decreasing sequence. -/
theorem C8_monotone_publication_cex :
    ¬ (∀ (rb0 : RingBuffer) (rcl cl b N : Nat) (s0 s : RingBuffer),
        Initialize rb0 rcl cl b N = (s0, none) → Reachable N s0 s →
        s.m_WriterShared ≤ s.FinishWrite.m_WriterShared ∧
        s.m_ReaderShared ≤ s.FinishRead.m_ReaderShared) := by
  intro hclaim
  have h1 : (initState 0 (2 ^ 62)).PrepareWrite (2 ^ 62) 1 =
      some (⟨⟨0, 2 ^ 62, 2 ^ 62, 0, 2 ^ 62⟩, ⟨0, 0, 0, 0, 2 ^ 62⟩, 0, 0⟩, 0) := by
    decide
  have h3 : (RingBuffer.FinishWrite
        ⟨⟨0, 2 ^ 62, 2 ^ 62, 0, 2 ^ 62⟩, ⟨0, 0, 0, 0, 2 ^ 62⟩, 0, 0⟩).PrepareRead
      (2 ^ 62) 1 =
      some (⟨⟨0, 2 ^ 62, 2 ^ 62, 0, 2 ^ 62⟩, ⟨0, 2 ^ 62, 2 ^ 62, 0, 2 ^ 62⟩,
        2 ^ 62, 0⟩, 0) := by
    decide
  have h5 : (RingBuffer.FinishRead
        ⟨⟨0, 2 ^ 62, 2 ^ 62, 0, 2 ^ 62⟩, ⟨0, 2 ^ 62, 2 ^ 62, 0, 2 ^ 62⟩,
          2 ^ 62, 0⟩).PrepareWrite (2 ^ 62) 1 =
      some (⟨⟨0, 2 ^ 62, 2 ^ 62, 2 ^ 62, 2 ^ 62⟩, ⟨0, 2 ^ 62, 2 ^ 62, 0, 2 ^ 62⟩,
        2 ^ 62, 2 ^ 62⟩, 0) := by
    decide
  have h7 : (RingBuffer.FinishWrite
        ⟨⟨0, 2 ^ 62, 2 ^ 62, 2 ^ 62, 2 ^ 62⟩, ⟨0, 2 ^ 62, 2 ^ 62, 0, 2 ^ 62⟩,
          2 ^ 62, 2 ^ 62⟩).PrepareRead (2 ^ 62) 1 =
      some (⟨⟨0, 2 ^ 62, 2 ^ 62, 2 ^ 62, 2 ^ 62⟩, ⟨0, 2 ^ 62, 2 ^ 62, 2 ^ 62, 2 ^ 62⟩,
        2 ^ 63, 2 ^ 62⟩, 0) := by
    decide
  have h9 : (RingBuffer.FinishRead
        ⟨⟨0, 2 ^ 62, 2 ^ 62, 2 ^ 62, 2 ^ 62⟩, ⟨0, 2 ^ 62, 2 ^ 62, 2 ^ 62, 2 ^ 62⟩,
          2 ^ 63, 2 ^ 62⟩).PrepareWrite (2 ^ 62) 1 =
      some (⟨⟨0, 2 ^ 62, 2 ^ 62, 2 ^ 63, 2 ^ 62⟩, ⟨0, 2 ^ 62, 2 ^ 62, 2 ^ 62, 2 ^ 62⟩,
        2 ^ 63, 2 ^ 63⟩, 0) := by
    decide
  have h11 : (RingBuffer.FinishWrite
        ⟨⟨0, 2 ^ 62, 2 ^ 62, 2 ^ 63, 2 ^ 62⟩, ⟨0, 2 ^ 62, 2 ^ 62, 2 ^ 62, 2 ^ 62⟩,
          2 ^ 63, 2 ^ 63⟩).PrepareRead (2 ^ 62) 1 =
      some (⟨⟨0, 2 ^ 62, 2 ^ 62, 2 ^ 63, 2 ^ 62⟩, ⟨0, 2 ^ 62, 2 ^ 62, 2 ^ 63, 2 ^ 62⟩,
        3 * 2 ^ 62, 2 ^ 63⟩, 0) := by
    decide
  have h13 : (RingBuffer.FinishRead
        ⟨⟨0, 2 ^ 62, 2 ^ 62, 2 ^ 63, 2 ^ 62⟩, ⟨0, 2 ^ 62, 2 ^ 62, 2 ^ 63, 2 ^ 62⟩,
          3 * 2 ^ 62, 2 ^ 63⟩).PrepareWrite (2 ^ 62) 1 =
      some (⟨⟨0, 2 ^ 62, 2 ^ 62, 3 * 2 ^ 62, 2 ^ 62⟩, ⟨0, 2 ^ 62, 2 ^ 62, 2 ^ 63, 2 ^ 62⟩,
        3 * 2 ^ 62, 3 * 2 ^ 62⟩, 0) := by
    decide
  have hreach : Reachable (2 ^ 62) (initState 0 (2 ^ 62))
      ⟨⟨0, 2 ^ 62, 2 ^ 62, 3 * 2 ^ 62, 2 ^ 62⟩, ⟨0, 2 ^ 62, 2 ^ 62, 2 ^ 63, 2 ^ 62⟩,
        3 * 2 ^ 62, 3 * 2 ^ 62⟩ := by
    refine Relation.ReflTransGen.tail (Relation.ReflTransGen.tail
      (Relation.ReflTransGen.tail (Relation.ReflTransGen.tail
      (Relation.ReflTransGen.tail (Relation.ReflTransGen.tail
      (Relation.ReflTransGen.tail (Relation.ReflTransGen.tail
      (Relation.ReflTransGen.tail (Relation.ReflTransGen.tail
      (Relation.ReflTransGen.tail (Relation.ReflTransGen.tail
      (Relation.ReflTransGen.tail Relation.ReflTransGen.refl
        (Step.prepareWrite _ _ _ _ _ (le_refl _) (by decide) (by decide) h1))
        (Step.finishWrite _))
        (Step.prepareRead _ _ _ _ _ (le_refl _) (by decide) (by decide) h3))
        (Step.finishRead _))
        (Step.prepareWrite _ _ _ _ _ (le_refl _) (by decide) (by decide) h5))
        (Step.finishWrite _))
        (Step.prepareRead _ _ _ _ _ (le_refl _) (by decide) (by decide) h7))
        (Step.finishRead _))
        (Step.prepareWrite _ _ _ _ _ (le_refl _) (by decide) (by decide) h9))
        (Step.finishWrite _))
        (Step.prepareRead _ _ _ _ _ (le_refl _) (by decide) (by decide) h11))
        (Step.finishRead _))
        (Step.prepareWrite _ _ _ _ _ (le_refl _) (by decide) (by decide) h13)
  have h := hclaim ⟨LocalState.zeroed, LocalState.zeroed, 0, 0⟩ 64 64 0 (2 ^ 62)
    (initState 0 (2 ^ 62)) _ (by decide) hreach
  exact absurd h.1 (by decide)

/-! ## Claim C3: slow-path algorithm -/

/-- The producer slow path written out following the specification's words
(§4.3): first wrap if `end > size` by executing exactly
`end -= aligned; aligned = 0; base += size`, then spin loading the peer
counter with `available = readerPos - base + size` until the signed space
test passes, and finally set the cached window end to
`min(available, size)`. -/
def WriterSlowPathSpec (rb : RingBuffer) (aligned e : Nat) :
    Option (RingBuffer × Nat × Nat) :=
  let wrapNeeded := e > rb.m_Writer.size
  let e1 := if wrapNeeded then wsub e aligned else e
  let aligned1 := if wrapNeeded then 0 else aligned
  let base1 := if wrapNeeded then wadd rb.m_Writer.base rb.m_Writer.size
    else rb.m_Writer.base
  let readerPos := rb.m_ReaderShared
  let available := wadd (wsub readerPos base1) rb.m_Writer.size
  if SignedSpaceTest available e1 then
    some
      ({ rb with
          m_Writer :=
            { rb.m_Writer with
              base := base1
              end_ := min available rb.m_Writer.size } },
        aligned1, e1)
  else
    none

/-- The consumer slow path following the specification's words: identical
to the producer's except `available = writerPos - base`, with no `+ size`
term. -/
def ReaderSlowPathSpec (rb : RingBuffer) (aligned e : Nat) :
    Option (RingBuffer × Nat × Nat) :=
  let wrapNeeded := e > rb.m_Reader.size
  let e1 := if wrapNeeded then wsub e aligned else e
  let aligned1 := if wrapNeeded then 0 else aligned
  let base1 := if wrapNeeded then wadd rb.m_Reader.base rb.m_Reader.size
    else rb.m_Reader.base
  let writerPos := rb.m_WriterShared
  let available := wsub writerPos base1
  if SignedSpaceTest available e1 then
    some
      ({ rb with
          m_Reader :=
            { rb.m_Reader with
              base := base1
              end_ := min available rb.m_Reader.size } },
        aligned1, e1)
  else
    none

/-- C3: the slow paths of the code compute exactly the algorithm stated by
the specification: wrap first (`end -= aligned; aligned = 0;
base += size` when `end > size`), then acquire capacity against the peer
counter with `available = readerPos - base + size` for the producer
(`writerPos - base`, with no `+ size`, for the consumer), and cache
`end = min(available, size)`. -/
theorem C3_slow_path_algorithm :
    (∀ (rb : RingBuffer) (pos e : Nat),
      rb.GetBufferSpaceToWriteTo pos e = WriterSlowPathSpec rb pos e) ∧
    (∀ (rb : RingBuffer) (pos e : Nat),
      rb.GetBufferSpaceToReadFrom pos e = ReaderSlowPathSpec rb pos e) := by
  constructor
  · intro rb pos e
    by_cases h : e > rb.m_Writer.size
    · simp only [RingBuffer.GetBufferSpaceToWriteTo, WriterSlowPathSpec,
        WriteLoopIteration, if_pos h]
    · simp only [RingBuffer.GetBufferSpaceToWriteTo, WriterSlowPathSpec,
        WriteLoopIteration, if_neg h]
  · intro rb pos e
    by_cases h : e > rb.m_Reader.size
    · simp only [RingBuffer.GetBufferSpaceToReadFrom, ReaderSlowPathSpec,
        ReadLoopIteration, if_pos h]
    · simp only [RingBuffer.GetBufferSpaceToReadFrom, ReaderSlowPathSpec,
        ReadLoopIteration, if_neg h]

/-! ## Claim C4: alignment of returned addresses -/

/-- The address returned by `PrepareWrite` is `buffer + pos` where `pos`
is either the aligned offset (fast path or slow path without wrap) or `0`
(slow path with wrap). -/
theorem PrepareWrite_addr {rb rb' : RingBuffer} {sz a addr : Nat}
    (h : rb.PrepareWrite sz a = some (rb', addr)) :
    addr = wadd rb.m_Writer.buffer (Align rb.m_Writer.pos a) ∨
    addr = wadd rb.m_Writer.buffer 0 := by
  simp only [RingBuffer.PrepareWrite] at h
  split at h
  · cases hG : rb.GetBufferSpaceToWriteTo (Align rb.m_Writer.pos a)
        ((Align rb.m_Writer.pos a + sz) % W) with
    | none =>
        rw [hG] at h
        simp at h
    | some trip =>
        obtain ⟨rb2, pos2, e2⟩ := trip
        rw [hG] at h
        simp only [Option.some.injEq, Prod.mk.injEq] at h
        obtain ⟨hs', haddr⟩ := h
        unfold RingBuffer.GetBufferSpaceToWriteTo at hG
        split at hG
        · obtain ⟨hpos2, he2, hrb2g, hrb2⟩ := WriteLoopIteration_some hG
          subst hpos2
          subst hrb2
          subst haddr
          right
          rfl
        · obtain ⟨hpos2, he2, hrb2g, hrb2⟩ := WriteLoopIteration_some hG
          subst pos2
          subst hrb2
          subst haddr
          left
          rfl
  · simp only [Option.some.injEq, Prod.mk.injEq] at h
    obtain ⟨hs', haddr⟩ := h
    subst haddr
    left
    rfl

/-- Mirror of `PrepareWrite_addr` for the consumer. -/
theorem PrepareRead_addr {rb rb' : RingBuffer} {sz a addr : Nat}
    (h : rb.PrepareRead sz a = some (rb', addr)) :
    addr = wadd rb.m_Reader.buffer (Align rb.m_Reader.pos a) ∨
    addr = wadd rb.m_Reader.buffer 0 := by
  simp only [RingBuffer.PrepareRead] at h
  split at h
  · cases hG : rb.GetBufferSpaceToReadFrom (Align rb.m_Reader.pos a)
        ((Align rb.m_Reader.pos a + sz) % W) with
    | none =>
        rw [hG] at h
        simp at h
    | some trip =>
        obtain ⟨rb2, pos2, e2⟩ := trip
        rw [hG] at h
        simp only [Option.some.injEq, Prod.mk.injEq] at h
        obtain ⟨hs', haddr⟩ := h
        unfold RingBuffer.GetBufferSpaceToReadFrom at hG
        split at hG
        · obtain ⟨hpos2, he2, hrb2g, hrb2⟩ := ReadLoopIteration_some hG
          subst hpos2
          subst hrb2
          subst haddr
          right
          rfl
        · obtain ⟨hpos2, he2, hrb2g, hrb2⟩ := ReadLoopIteration_some hG
          subst pos2
          subst hrb2
          subst haddr
          left
          rfl
  · simp only [Option.some.injEq, Prod.mk.injEq] at h
    obtain ⟨hs', haddr⟩ := h
    subst haddr
    left
    rfl

/-- C4: with the buffer cache-line aligned and the requested alignment a
power of two not exceeding the cache-line alignment (and the do-not-align
flag unset), every address returned by `PrepareWrite` or `PrepareRead`
satisfies `addr % alignment = 0`. -/
theorem C4_alignment (rb : RingBuffer) (cacheLineSize sizeW sizeR alignment : Nat)
    (rbW rbR : RingBuffer) (addrW addrR : Nat)
    (hpow : is_power_of_two alignment = true) (haW : alignment < W)
    (hdvd : alignment ∣ cacheLineSize)
    (hbufW : cacheLineSize ∣ rb.m_Writer.buffer)
    (hbufR : cacheLineSize ∣ rb.m_Reader.buffer)
    (hW : rb.PrepareWrite sizeW alignment = some (rbW, addrW))
    (hR : rb.PrepareRead sizeR alignment = some (rbR, addrR)) :
    addrW % alignment = 0 ∧ addrR % alignment = 0 := by
  obtain ⟨k, rfl⟩ := pow2_exists hpow
  have hk : k ≤ 63 := pow2_le_63 rfl haW
  have hkW : 2 ^ k ∣ W := by
    show 2 ^ k ∣ 2 ^ 64
    exact pow_dvd_pow 2 (by omega)
  have hgen : ∀ buf p2 : Nat, 2 ^ k ∣ buf → 2 ^ k ∣ p2 →
      wadd buf p2 % 2 ^ k = 0 := by
    intro buf p2 h1 h2
    exact Nat.mod_eq_zero_of_dvd ((Nat.dvd_mod_iff hkW).mpr (dvd_add h1 h2))
  constructor
  · rcases PrepareWrite_addr hW with hadd | hadd <;> subst hadd
    · exact hgen _ _ (dvd_trans hdvd hbufW) (Align_dvd hk _)
    · exact hgen _ _ (dvd_trans hdvd hbufW) (dvd_zero _)
  · rcases PrepareRead_addr hR with hadd | hadd <;> subst hadd
    · exact hgen _ _ (dvd_trans hdvd hbufR) (Align_dvd hk _)
    · exact hgen _ _ (dvd_trans hdvd hbufR) (dvd_zero _)

theorem C4_alignment_witness :
    is_power_of_two 4 = true ∧ (4 : Nat) < W ∧ (4 : Nat) ∣ 64 ∧
    (64 : Nat) ∣ (initState 128 16).m_Writer.buffer ∧
    (64 : Nat) ∣ (initState 128 16).m_Reader.buffer ∧
    (initState 128 16).PrepareWrite 8 4 =
      some (⟨⟨128, 8, 16, 0, 16⟩, ⟨128, 0, 0, 0, 16⟩, 0, 0⟩, 128) ∧
    (initState 128 16).PrepareRead 0 4 =
      some (⟨⟨128, 0, 16, 0, 16⟩, ⟨128, 0, 0, 0, 16⟩, 0, 0⟩, 128) ∧
    (128 % 4 = 0 ∧ 128 % 4 = 0) :=
  ⟨by decide, by decide, by decide, by decide, by decide, by decide, by decide,
    C4_alignment (initState 128 16) 64 8 0 4
      ⟨⟨128, 8, 16, 0, 16⟩, ⟨128, 0, 0, 0, 16⟩, 0, 0⟩
      ⟨⟨128, 0, 16, 0, 16⟩, ⟨128, 0, 0, 0, 16⟩, 0, 0⟩ 128 128 (by decide) (by decide)
      (by decide) (by decide) (by decide) (by decide) (by decide)⟩

/-! ## Claim C6: the signed space test -/

/-- C6 (amended): the slow-path decision converts `available` and `end`
to `ptrdiff_t` separately and compares (`SignedSpaceTest`); this agrees
with the specification's formula `(ptrdiff_t)(available - end) >= 0`
whenever both operands are below `2 ^ 63` (no overflow in the signed
subtraction) — but not for all `size_t` values, see the counterexample. -/
theorem C6_signed_space_test (a e : Nat) (ha : a < 2 ^ 63) (he : e < 2 ^ 63) :
    (SignedSpaceTest a e = true ↔ 0 ≤ toSigned (wsub a e)) := by
  have hWval : W = 2 ^ 64 := rfl
  rw [SignedSpaceTest, decide_eq_true_eq]
  have hta : toSigned a = (a : Int) := by rw [toSigned, if_pos ha]
  have hte : toSigned e = (e : Int) := by rw [toSigned, if_pos he]
  rw [hta, hte]
  constructor
  · intro h
    have hea : e ≤ a := by exact_mod_cast h
    have hsub : wsub a e = a - e := wsub_small hea (by omega)
    rw [hsub, toSigned, if_pos (by omega)]
    positivity
  · intro h
    by_contra hlt
    push_neg at hlt
    have hae : a < e := by exact_mod_cast hlt
    have hsub : wsub a e = W - (e - a) := by
      unfold wsub
      rw [Nat.mod_eq_of_lt (by omega : e < W)]
      have h1 : a + (W - e) = W - (e - a) := by omega
      rw [h1, Nat.mod_eq_of_lt (by omega)]
    rw [hsub, toSigned] at h
    rw [if_neg (by omega)] at h
    have hcast : ((W - (e - a) : Nat) : Int) = (W : Int) - ((e - a : Nat) : Int) := by
      rw [Nat.cast_sub (by omega : e - a ≤ W)]
    omega

theorem C6_signed_space_test_witness :
    (5 : Nat) < 2 ^ 63 ∧ (3 : Nat) < 2 ^ 63 ∧
    (SignedSpaceTest 5 3 = true ↔ 0 ≤ toSigned (wsub 5 3)) :=
  ⟨by decide, by decide, C6_signed_space_test 5 3 (by decide) (by decide)⟩

/-- C6 counterexample: at `available = 2 ^ 63 - 1`, `end = 2 ^ 64 - 1`,
the test the code performs (`(ptrdiff_t)available >= (ptrdiff_t)end`,
i.e. `2 ^ 63 - 1 ≥ -1`) succeeds, while the specification's formula
`(ptrdiff_t)(available - end) = toSigned (2 ^ 63) = -2 ^ 63` is negative:
the claimed equivalence fails for these `size_t` values. -/
theorem C6_signed_space_test_cex :
    ¬ (∀ a e : Nat, a < W → e < W →
        (SignedSpaceTest a e = true ↔ 0 ≤ toSigned (wsub a e))) := by
  intro hclaim
  have h := (hclaim (2 ^ 63 - 1) (2 ^ 64 - 1) (by decide) (by decide)).mp (by decide)
  exact absurd h (by decide)

/-! ## Claim C10: zero-size reservations are no-ops -/

/-- Alignment 1 leaves a reduced offset unchanged. -/
theorem Align_one {p : Nat} (hp : p < W) : Align p 1 = p := by
  show ((p + (1 - 1)) % W) &&& (W - 1) = p
  rw [Nat.sub_self, Nat.add_zero, Nat.mod_eq_of_lt hp]
  have h := and_mask_eq_sub_mod (w := 64) (k := 0) (by norm_num) hp
  simpa [W, Nat.mod_one] using h

/-- A zero-byte reservation with alignment 1 takes the fast path and
changes nothing (producer side). -/
theorem PrepareWrite_zero (rb : RingBuffer)
    (hw : rb.m_Writer.pos ≤ rb.m_Writer.end_) (hwW : rb.m_Writer.pos < W) :
    rb.PrepareWrite 0 1 = some (rb, wadd rb.m_Writer.buffer rb.m_Writer.pos) := by
  simp only [RingBuffer.PrepareWrite, Align_one hwW,
    Nat.add_zero, Nat.mod_eq_of_lt hwW]
  rw [if_neg (by omega)]

/-- A zero-byte reservation with alignment 1 takes the fast path and
changes nothing (consumer side). -/
theorem PrepareRead_zero (rb : RingBuffer)
    (hr : rb.m_Reader.pos ≤ rb.m_Reader.end_) (hrW : rb.m_Reader.pos < W) :
    rb.PrepareRead 0 1 = some (rb, wadd rb.m_Reader.buffer rb.m_Reader.pos) := by
  simp only [RingBuffer.PrepareRead, Align_one hrW,
    Nat.add_zero, Nat.mod_eq_of_lt hrW]
  rw [if_neg (by omega)]

/-- C10: in any state where the writer's local `pos ≤ end` (and `pos` is
a `size_t` value), `PrepareWrite(0, 1)` returns `buffer + pos` and leaves
the entire ring buffer state (both local views and both shared counters)
unchanged, taking the fast path; symmetrically, in any state where the
reader's local `pos ≤ end`, `PrepareRead(0, 1)` is a no-op on the
reader's state.  Each side's no-op depends only on that side's own local
state. -/
theorem C10_zero_size_noop (rb : RingBuffer) :
    (rb.m_Writer.pos ≤ rb.m_Writer.end_ → rb.m_Writer.pos < W →
      rb.PrepareWrite 0 1 =
        some (rb, wadd rb.m_Writer.buffer rb.m_Writer.pos)) ∧
    (rb.m_Reader.pos ≤ rb.m_Reader.end_ → rb.m_Reader.pos < W →
      rb.PrepareRead 0 1 =
        some (rb, wadd rb.m_Reader.buffer rb.m_Reader.pos)) :=
  ⟨fun hw hwW => PrepareWrite_zero rb hw hwW,
    fun hr hrW => PrepareRead_zero rb hr hrW⟩

/-- The writer conjunct is discharged on a state whose reader side is
broken (`reader.pos = 2 ^ 63 > end = 0`, the state the C7 counterexample
reaches), showing the no-op needs only the writer's own `pos ≤ end`; the
reader conjunct is discharged on the fresh state. -/
theorem C10_zero_size_noop_witness :
    ((⟨⟨0, 0, 2 ^ 63, 0, 2 ^ 63⟩, ⟨0, 2 ^ 63, 0, 0, 2 ^ 63⟩, 0, 0⟩ :
        RingBuffer).m_Reader.end_ <
      (⟨⟨0, 0, 2 ^ 63, 0, 2 ^ 63⟩, ⟨0, 2 ^ 63, 0, 0, 2 ^ 63⟩, 0, 0⟩ :
        RingBuffer).m_Reader.pos) ∧
    (RingBuffer.PrepareWrite
        ⟨⟨0, 0, 2 ^ 63, 0, 2 ^ 63⟩, ⟨0, 2 ^ 63, 0, 0, 2 ^ 63⟩, 0, 0⟩ 0 1 =
      some (⟨⟨0, 0, 2 ^ 63, 0, 2 ^ 63⟩, ⟨0, 2 ^ 63, 0, 0, 2 ^ 63⟩, 0, 0⟩,
        wadd 0 0)) ∧
    (initState 0 16).PrepareRead 0 1 =
      some (initState 0 16, wadd (initState 0 16).m_Reader.buffer
        (initState 0 16).m_Reader.pos) := by
  refine ⟨by decide, ?_, ?_⟩
  · exact (C10_zero_size_noop
      ⟨⟨0, 0, 2 ^ 63, 0, 2 ^ 63⟩, ⟨0, 2 ^ 63, 0, 0, 2 ^ 63⟩, 0, 0⟩).1
      (by decide) (by decide)
  · exact (C10_zero_size_noop (initState 0 16)).2 (by decide) (by decide)



/-! ## Claim C1: round-trip law -/

theorem Align_zero_one : Align 0 1 = 0 := Align_one W_pos

/-- `PrepareRead(n, 1)` on a fresh reader view whose producer has
published exactly `n` bytes: returns the base address with the window
`[0, n)`. -/
theorem PrepareRead_fresh (b N n : Nat) (hnN : n ≤ N) (hNW : N < W) :
    (RingBuffer.PrepareRead ⟨⟨b, n, N, 0, N⟩, ⟨b, 0, 0, 0, N⟩, n, 0⟩ n 1) =
      some (⟨⟨b, n, N, 0, N⟩, ⟨b, n, n, 0, N⟩, n, 0⟩, wadd b 0) := by
  have hnW : n < W := by omega
  by_cases hn : 0 < n
  · have hwsub0 : wsub n 0 = n := by
      unfold wsub
      rw [Nat.zero_mod, Nat.sub_zero, Nat.add_mod_right, Nat.mod_eq_of_lt hnW]
    have hG : RingBuffer.GetBufferSpaceToReadFrom
        ⟨⟨b, n, N, 0, N⟩, ⟨b, 0, 0, 0, N⟩, n, 0⟩ 0 n =
        some (⟨⟨b, n, N, 0, N⟩, ⟨b, 0, n, 0, N⟩, n, 0⟩, 0, n) := by
      unfold RingBuffer.GetBufferSpaceToReadFrom
      simp only []
      rw [if_neg (show ¬ n > N by omega)]
      simp only [ReadLoopIteration]
      rw [hwsub0, if_pos (show SignedSpaceTest n n = true from decide_eq_true (le_refl _)),
        min_eq_left hnN]
    simp only [RingBuffer.PrepareRead, Align_zero_one, Nat.zero_add,
      Nat.mod_eq_of_lt hnW]
    rw [if_pos (show n > 0 by omega), hG]
  · have hn0 : n = 0 := by omega
    subst hn0
    exact PrepareRead_zero ⟨⟨b, 0, N, 0, N⟩, ⟨b, 0, 0, 0, N⟩, 0, 0⟩ (Nat.le_refl 0) W_pos

/-- C1: after a successful `Initialize(buffer, N)` (with `N` a `size_t`
value, i.e. `N < 2 ^ 64`), for any byte sequence `B` with `|B| ≤ N`:
`PrepareWrite(|B|, 1)` succeeds; storing `B` at the returned address,
calling `FinishWrite`, and then calling `PrepareRead(|B|, 1)` returns an
address at which exactly the bytes of `B` are read back. -/
theorem C1_round_trip (rb0 : RingBuffer) (rcl cl b N : Nat) (s0 : RingBuffer)
    (B : List Nat) (hinit : Initialize rb0 rcl cl b N = (s0, none))
    (hNW : N < W) (hlen : B.length ≤ N) :
    ∃ s1 addrW, s0.PrepareWrite B.length 1 = some (s1, addrW) ∧
      ∀ mem : Nat → Nat, ∃ s2 addrR,
        s1.FinishWrite.PrepareRead B.length 1 = some (s2, addrR) ∧
        readBytes (writeBytes mem addrW B) addrR B.length = B := by
  obtain ⟨-, -, hpow, rfl⟩ := Initialize_ok hinit
  have hlenW : B.length < W := lt_of_le_of_lt hlen hNW
  refine ⟨⟨⟨b, B.length, N, 0, N⟩, ⟨b, 0, 0, 0, N⟩, 0, 0⟩, wadd b 0, ?_, ?_⟩
  · simp only [RingBuffer.PrepareWrite, initState, Align_zero_one, Nat.zero_add,
      Nat.mod_eq_of_lt hlenW]
    rw [if_neg (show ¬ B.length > N by omega)]
  · intro mem
    have hread : readBytes (writeBytes mem (wadd b 0) B) (wadd b 0) B.length = B :=
      readBytes_writeBytes B mem (wadd b 0)
    have hfin : (RingBuffer.FinishWrite
        ⟨⟨b, B.length, N, 0, N⟩, ⟨b, 0, 0, 0, N⟩, 0, 0⟩) =
        ⟨⟨b, B.length, N, 0, N⟩, ⟨b, 0, 0, 0, N⟩, B.length, 0⟩ := by
      simp only [RingBuffer.FinishWrite]
      unfold wadd
      rw [Nat.zero_add, Nat.mod_eq_of_lt hlenW]
    refine ⟨⟨⟨b, B.length, N, 0, N⟩, ⟨b, B.length, B.length, 0, N⟩, B.length, 0⟩,
      wadd b 0, ?_, hread⟩
    rw [hfin]
    exact PrepareRead_fresh b N B.length hlen hNW

theorem C1_round_trip_witness :
    Initialize ⟨LocalState.zeroed, LocalState.zeroed, 0, 0⟩ 64 64 0 16 =
      (initState 0 16, none) ∧
    (16 : Nat) < W ∧ ([7, 8, 9] : List Nat).length ≤ 16 ∧
    (∃ s1 addrW,
      (initState 0 16).PrepareWrite ([7, 8, 9] : List Nat).length 1 =
        some (s1, addrW) ∧
      ∀ mem : Nat → Nat, ∃ s2 addrR,
        s1.FinishWrite.PrepareRead ([7, 8, 9] : List Nat).length 1 =
          some (s2, addrR) ∧
        readBytes (writeBytes mem addrW [7, 8, 9]) addrR
          ([7, 8, 9] : List Nat).length = [7, 8, 9]) :=
  ⟨by decide, by decide, by decide,
    C1_round_trip ⟨LocalState.zeroed, LocalState.zeroed, 0, 0⟩ 64 64 0 16
      (initState 0 16) [7, 8, 9] (by decide) (by decide) (by decide)⟩

/-! ## Claim C5: Initialize validation -/

/-- C5 (amended): the three `Initialize` checks run in a fixed order —
cache-line size, then buffer alignment, then power-of-two size — and each
fires only when the earlier checks pass.  With the cache-line check
passing, a misaligned buffer fails with "buffer is not aligned on cache
line"; with an aligned buffer, a non-power-of-two size fails with "size
must be a power of two"; on failure the state is returned unchanged. -/
theorem C5_initialize_validation (rb : RingBuffer) (rcl cl b N : Nat) :
    (rcl = cl → b % cl ≠ 0 →
      Initialize rb rcl cl b N =
        (rb, some "buffer is not aligned on cache line")) ∧
    (rcl = cl → b % cl = 0 → is_power_of_two N = false →
      Initialize rb rcl cl b N = (rb, some "size must be a power of two")) := by
  constructor
  · intro h1 h2
    unfold Initialize
    rw [if_neg (fun hne => hne h1), if_pos h2]
  · intro h1 h2 h3
    unfold Initialize
    rw [if_neg (fun hne => hne h1), if_neg (fun hne => hne h2), if_pos h3]

theorem C5_initialize_validation_witness :
    Initialize ⟨LocalState.zeroed, LocalState.zeroed, 0, 0⟩ 64 64 1 3 =
      (⟨LocalState.zeroed, LocalState.zeroed, 0, 0⟩,
        some "buffer is not aligned on cache line") ∧
    Initialize ⟨LocalState.zeroed, LocalState.zeroed, 0, 0⟩ 64 64 0 3 =
      (⟨LocalState.zeroed, LocalState.zeroed, 0, 0⟩,
        some "size must be a power of two") :=
  ⟨(C5_initialize_validation ⟨LocalState.zeroed, LocalState.zeroed, 0, 0⟩
      64 64 1 3).1 rfl (by decide),
    (C5_initialize_validation ⟨LocalState.zeroed, LocalState.zeroed, 0, 0⟩
      64 64 0 3).2 rfl (by decide) (by decide)⟩

/-- C5 counterexample: at `buffer = 1`, `size = 3` (cache-line check
passing), `size` is not a power of two yet `Initialize` fails with the
alignment message, not "size must be a power of two" — the claim's
unconditional "whenever size is not a power of two" is false because the
alignment check precedes the size check. -/
theorem C5_initialize_validation_cex :
    ¬ (∀ (rb : RingBuffer) (rcl cl b N : Nat),
        (b % cl ≠ 0 → (Initialize rb rcl cl b N).2 =
          some "buffer is not aligned on cache line") ∧
        (is_power_of_two N = false → (Initialize rb rcl cl b N).2 =
          some "size must be a power of two")) := by
  intro hclaim
  have h := (hclaim ⟨LocalState.zeroed, LocalState.zeroed, 0, 0⟩ 64 64 1 3).2
    (by decide)
  exact absurd h (by decide)

/-! ## Claim C9: Reset postcondition -/

/-- C9 (amended): `Reset` returns the instance to the all-zero state
(both shared counters zero, both local states fully zeroed, including the
buffer pointers, sizes, and the writer's initial window `end`), without
re-running any platform validation.  The post-`Initialize` state is this
zero state plus the installed buffer pointers, sizes and writer window, so
`Reset` does not restore the full post-`Initialize` state. -/
theorem C9_reset_state (rb rb0 : RingBuffer) (rcl cl b N : Nat)
    (s0 : RingBuffer) (hinit : Initialize rb0 rcl cl b N = (s0, none)) :
    Reset rb = ⟨LocalState.zeroed, LocalState.zeroed, 0, 0⟩ ∧
    s0 = ⟨⟨b, 0, N, 0, N⟩, ⟨b, 0, 0, 0, N⟩, 0, 0⟩ := by
  obtain ⟨-, -, -, rfl⟩ := Initialize_ok hinit
  exact ⟨rfl, rfl⟩

theorem C9_reset_state_witness :
    Initialize ⟨LocalState.zeroed, LocalState.zeroed, 0, 0⟩ 64 64 0 16 =
      (initState 0 16, none) ∧
    (Reset (initState 0 16) = ⟨LocalState.zeroed, LocalState.zeroed, 0, 0⟩ ∧
      initState 0 16 = ⟨⟨0, 0, 16, 0, 16⟩, ⟨0, 0, 0, 0, 16⟩, 0, 0⟩) :=
  ⟨by decide,
    C9_reset_state (initState 0 16) ⟨LocalState.zeroed, LocalState.zeroed, 0, 0⟩
      64 64 0 16 (initState 0 16) (by decide)⟩

/-- C9 counterexample: after a successful `Initialize(buffer = 0,
size = 16)`, calling `Reset` does not return the post-`Initialize` state:
it zeroes the sizes, the buffer pointers and the writer's window, so
`Reset s0 ≠ s0`. -/
theorem C9_reset_state_cex :
    ¬ (∀ (rb0 : RingBuffer) (rcl cl b N : Nat) (s0 : RingBuffer),
        Initialize rb0 rcl cl b N = (s0, none) → Reset s0 = s0) := by
  intro hclaim
  have h := hclaim ⟨LocalState.zeroed, LocalState.zeroed, 0, 0⟩ 64 64 0 16
    (initState 0 16) (by decide)
  exact absurd h (by decide)
